import Mathlib

/-!
Verification of the mdserver request router / path resolver, watch dispatch
loop, reload broadcast step, and index listing against its specification.

The Go sources are shallowly embedded: pure string/path manipulation is
translated function by function (Go `path/filepath` is lexical on Unix, with
`/` as separator, so its operations are modelled as pure functions on the
character lists underlying strings); filesystem probing (`os.Stat`,
`os.ReadDir`, `filepath.Glob`) is modelled by passing the relevant filesystem
view as an explicit parameter; an HTTP handler becomes a function from the
request path to a classification of the response it writes.
-/

namespace MdServer

/-! ### Go string primitives (`strings` package, byte = ASCII char level) -/

/-- Split a character list at every occurrence of `sep`
(Go `strings.Split`, specialised to a one-character separator). -/
def splitOnCh (sep : Char) : List Char → List (List Char)
  | [] => [[]]
  | c :: r =>
    if c = sep then [] :: splitOnCh sep r
    else
      match splitOnCh sep r with
      | [] => [c] :: []
      | g :: gs => (c :: g) :: gs

/-- Go `strings.HasPrefix`. -/
def goHasPrefix (s pre : String) : Bool := pre.data.isPrefixOf s.data

/-- Go `strings.HasSuffix`. -/
def goHasSuffix (s suf : String) : Bool := suf.data.isSuffixOf s.data

/-- Go `strings.TrimPrefix`. -/
def goTrimPrefix (s pre : String) : String :=
  if goHasPrefix s pre then ⟨s.data.drop pre.data.length⟩ else s

/-- Go `strings.TrimSuffix`. -/
def goTrimSuffix (s suf : String) : String :=
  if goHasSuffix s suf then ⟨s.data.take (s.data.length - suf.data.length)⟩ else s

/-- First character of a string, if any (Go `s[0]` guarded by `len(s) > 0`). -/
def strHead? (s : String) : Option Char := s.data.head?

/-- Go `s[1:]` on a nonempty string. -/
def strTail (s : String) : String := ⟨s.data.tail⟩

/-- Go `strings.ToLower` (ASCII range; all extensions compared are ASCII). -/
def toLowerStr (s : String) : String := ⟨s.data.map Char.toLower⟩

/-- White space recognised by Go `unicode.IsSpace` (ASCII range). -/
def isSpaceCh (c : Char) : Bool :=
  c = ' ' || c = '\t' || c = '\n' || c = '\x0b' || c = '\x0c' || c = '\r'

/-- Go `strings.TrimSpace` (ASCII range). -/
def trimSpace (s : String) : String :=
  ⟨((s.data.dropWhile isSpaceCh).reverse.dropWhile isSpaceCh).reverse⟩

/-- Go `strings.Split(content, "\n")`. -/
def splitLines (s : String) : List String := (splitOnCh '\n' s.data).map String.mk

/-- Go `strings.Join(parts, sep)`. -/
def strJoin (sep : String) : List String → String
  | [] => ""
  | [s] => s
  | s :: rest => s ++ sep ++ strJoin sep rest

/-! ### Go `path/filepath` primitives (Unix separator `/`)

A path segment is modelled as the character list of one path element. -/

abbrev Seg := List Char

/-- Lexical cleaning of the segment list of a rooted path, as performed by
Go `filepath.Clean` on an absolute path: empty and `.` elements are dropped
and `..` removes the preceding element (or is dropped at the root).
`acc` holds the already-accepted elements in reverse. -/
def cleanSegsAux (acc : List Seg) : List Seg → List Seg
  | [] => acc.reverse
  | s :: rest =>
    if s = [] ∨ s = ['.'] then cleanSegsAux acc rest
    else if s = ['.', '.'] then cleanSegsAux acc.tail rest
    else cleanSegsAux (s :: acc) rest

/-- Segment list of the Go `filepath.Clean` of a rooted path. -/
def segsOf (p : String) : List Seg := cleanSegsAux [] (splitOnCh '/' p.data)

/-- Join segments with `/` separators (no leading separator). -/
def joinSegs : List Seg → List Char
  | [] => []
  | [s] => s
  | s :: rest => s ++ '/' :: joinSegs rest

/-- Render a cleaned segment list as a rooted path string. -/
def renderRooted (ss : List Seg) : String := ⟨'/' :: joinSegs ss⟩

/-- Go `filepath.Clean` on a rooted (absolute) path. -/
def goClean (p : String) : String := renderRooted (segsOf p)

/-- Go `filepath.Abs`: the paths reaching it in this server are already
absolute (the root comes from `filepath.Abs` in `main`, candidates from
`filepath.Join` with it), so `Abs` reduces to `Clean`. -/
def goAbs (p : String) : String := goClean p

/-- Go `filepath.Join(a, b)` for an absolute `a`: `Clean(a + "/" + b)`. -/
def joinPath (a b : String) : String := goClean (a ++ "/" ++ b)

/-- Relative segment walk used by Go `filepath.Rel` on two cleaned absolute
paths: strip the common prefix, then one `..` per remaining base element
followed by the remaining target elements. -/
def relSegs : List Seg → List Seg → List Seg
  | [], ts => ts
  | b :: bs, [] => (b :: bs).map fun _ => ['.', '.']
  | b :: bs, t :: ts =>
    if b = t then relSegs bs ts
    else ((b :: bs).map fun _ => ['.', '.']) ++ t :: ts

/-- Go `filepath.Rel(base, targ)` for two absolute paths (both are cleaned
first; on two absolute Unix paths `Rel` never returns an error). -/
def goRel (base targ : String) : String :=
  let rs := relSegs (segsOf (goAbs base)) (segsOf (goAbs targ))
  if rs = [] then "." else ⟨joinSegs rs⟩

/-- Backwards scan of Go `filepath.Ext`: walking from the end of the path,
stop at a separator; at a dot, return the suffix from the dot on. -/
def goExtAux (acc : List Char) : List Char → List Char
  | [] => []
  | c :: r =>
    if c = '/' then []
    else if c = '.' then '.' :: acc
    else goExtAux (c :: acc) r

/-- Go `filepath.Ext`. -/
def goExt (p : String) : String := ⟨goExtAux [] p.data.reverse⟩

/-- Go `filepath.Base`. -/
def goBase (p : String) : String :=
  if p = "" then "."
  else
    let stripped := (p.data.reverse.dropWhile (· = '/')).reverse
    if stripped = [] then "/"
    else ⟨(stripped.reverse.takeWhile (· ≠ '/')).reverse⟩

/-- Go `filepath.Dir` on a rooted path: everything up to and including the
final separator, then `Clean`. -/
def goDir (p : String) : String :=
  let pre := (p.data.reverse.dropWhile (· ≠ '/')).reverse
  if pre = [] then "." else goClean ⟨pre⟩

/-! ### Filesystem view

`os.Stat` is modelled by a lookup in an association list from (cleaned,
absolute) path strings to `true` for a directory, `false` for a regular
file; absent paths make `Stat` fail. -/

/-- Filesystem view: existing paths with their directory flag. -/
structure Fsys where
  nodes : List (String × Bool)

/-- Result of `os.Stat`: `some true` = existing directory, `some false` =
existing regular file, `none` = stat error. -/
def statNode (fs : Fsys) (p : String) : Option Bool := fs.nodes.lookup p

/-! ### Response classification

One constructor per way a handler finishes writing the response. -/

/-- Classification of the HTTP response a handler produces. -/
inductive Response where
  /-- `handleIndex` invoked on the given directory. -/
  | indexPage (dirPath : String)
  /-- `http.Redirect` to the given location. -/
  | redirect (location : String)
  /-- `handleMarkdown` invoked on the given file (read + render + template). -/
  | markdownPage (filePath : String)
  /-- `http.ServeFile` of the given file with the given Content-Type. -/
  | staticAsset (filePath contentType : String)
  /-- `serveCSS` invoked (template stylesheet, else built-in default CSS). -/
  | cssResponse
  /-- LiveReload WebSocket upgrade. -/
  | lrUpgrade
  /-- `http.Error` with status 403 ("Invalid path"). -/
  | forbidden
  /-- `http.NotFound`. -/
  | notFoundResp
deriving DecidableEq, Repr

/-! ### server.go -/

/-- `getContentType` (server.go:192-217). -/
def getContentType (ext : String) : String :=
  if ext = ".html" ∨ ext = ".htm" then "text/html; charset=utf-8"
  else if ext = ".css" then "text/css; charset=utf-8"
  else if ext = ".js" then "application/javascript; charset=utf-8"
  else if ext = ".json" then "application/json; charset=utf-8"
  else if ext = ".png" then "image/png"
  else if ext = ".jpg" ∨ ext = ".jpeg" then "image/jpeg"
  else if ext = ".gif" then "image/gif"
  else if ext = ".svg" then "image/svg+xml"
  else if ext = ".webp" then "image/webp"
  else if ext = ".ico" then "image/x-icon"
  else "application/octet-stream"

/-- `isValidPath` (server.go:132-150): containment check of a candidate path
against the served root. -/
def isValidPath (root filePath : String) : Bool :=
  let absPath := goAbs filePath
  let absRoot := goAbs root
  let rel := goRel absRoot absPath
  rel != ".." && rel != "." && decide (0 < rel.length) && strHead? rel != some '.'

/-- `handleStaticFile` (server.go:153-176). The Go guard
`err != nil || info.IsDir()` yields not-found, so the file is served exactly
when `Stat` reports an existing regular file. -/
def handleStaticFile (fs : Fsys) (root filePath : String) : Response :=
  if !isValidPath root filePath then .forbidden
  else if statNode fs filePath = some false then
    .staticAsset filePath (getContentType (toLowerStr (goExt filePath)))
  else .notFoundResp

/-- Leading-slash strip of `handleRequest` (server.go:94-96). -/
def stripLeadSlash (p : String) : String :=
  if 0 < p.length ∧ strHead? p = some '/' then strTail p else p

/-- `handleRequest` (server.go:82-129): root index, directory redirect/index,
markdown (literal or implicit `.md`), else static file. The Go directory
test `err == nil && info.IsDir()` is `statNode = some true`. -/
def handleRequest (fs : Fsys) (root urlPath : String) : Response :=
  if urlPath = "/" then .indexPage root
  else
    let requestPath := stripLeadSlash urlPath
    let filePath := joinPath root requestPath
    if statNode fs filePath = some true then
      if !goHasSuffix requestPath "/" && !goHasSuffix urlPath "/" then
        .redirect (urlPath ++ "/")
      else .indexPage filePath
    else
      let ext := goExt filePath
      if ext = ".md" then
        if isValidPath root filePath then .markdownPage filePath
        else handleStaticFile fs root filePath
      else if ext = "" then
        if isValidPath root (filePath ++ ".md") then .markdownPage (filePath ++ ".md")
        else handleStaticFile fs root filePath
      else handleStaticFile fs root filePath

/-! ### handlers.go: asset handler -/

/-- `handleAssets` (handlers.go): strip the `/assets/` route, special-case an
empty remainder toward `serveCSS`, else serve the file under the root. -/
def handleAssets (fs : Fsys) (root urlPath : String) : Response :=
  let requestPath :=
    if goHasPrefix urlPath "/assets/" then goTrimPrefix urlPath "/assets/"
    else if urlPath = "/assets" then "" else urlPath
  if requestPath = "" ∨ requestPath = "/" then
    if urlPath = "/assets/style.css" ∨ goHasSuffix urlPath "style.css" then .cssResponse
    else .notFoundResp
  else
    let filePath := joinPath root requestPath
    if !isValidPath root filePath then .forbidden
    else if statNode fs filePath = some false then
      .staticAsset filePath (getContentType (toLowerStr (goExt filePath)))
    else .notFoundResp

/-! ### Server construction and route dispatch -/

/-- Outcome of the live-reload hub initialisation attempted by `NewServer`:
`NewLiveReload` may fail (no OS notification handle), and `Start` may fail. -/
inductive LRInit where
  | ok
  | constructFail
  | startFail
deriving DecidableEq, Repr

/-- The server state produced by `NewServer` + `setupRoutes` (server.go:29-79):
the registered route patterns and whether the live-reload hub is present
(`s.liveReload != nil`). On either initialisation failure the error is only
logged and the hub pointer stays/"becomes" nil. -/
structure ServerM where
  routes : List String
  liveReload : Bool
deriving DecidableEq, Repr

/-- `NewServer` (server.go:29-51) followed by `setupRoutes` (server.go:68-79). -/
def newServer (enableLiveReload : Bool) (lrInit : LRInit) : ServerM :=
  let lr := enableLiveReload && (lrInit == .ok)
  { routes := ["/assets/"] ++ (if lr then ["/livereload"] else []) ++ ["/"]
    liveReload := lr }

/-- Dispatch of `http.ServeMux` over the patterns registered by `setupRoutes`:
the `/assets/` subtree pattern wins over the catch-all `/`; a request for
`/assets` itself is redirected to `/assets/` by the mux; `/livereload` is an
exact pattern present only when the hub is alive. Request paths are assumed
already in the canonical form the mux delivers to handlers. -/
def serveHTTP (s : ServerM) (fs : Fsys) (root p : String) : Response :=
  if goHasPrefix p "/assets/" then handleAssets fs root p
  else if p = "/assets" then .redirect "/assets/"
  else if s.liveReload && (p == "/livereload") then .lrUpgrade
  else handleRequest fs root p

/-! ### handlers.go: extractTitle -/

/-- Loop body of `extractTitle` over the lines of the file. -/
def extractTitleLines (filename : String) : List String → String
  | [] => goTrimSuffix filename ".md"
  | l :: ls =>
    let line := trimSpace l
    if goHasPrefix line "# " then goTrimPrefix line "# "
    else extractTitleLines filename ls

/-- `extractTitle` (handlers.go): first line whose trimmed form starts with
`"# "`, else the filename with a `.md` suffix removed. -/
def extractTitle (content filename : String) : String :=
  extractTitleLines filename (splitLines content)

/-! ### handlers.go: URL path-segment escaping (`net/url.PathEscape`) -/

/-- Uppercase hex digit of a value below 16. -/
def hexUpper (n : Nat) : Char :=
  if n < 10 then Char.ofNat ('0'.toNat + n) else Char.ofNat ('A'.toNat + n - 10)

/-- Go `url.shouldEscape(c, encodePathSegment)`: alphanumerics, `-_.~` and
the reserved characters allowed inside one path segment (`$&+:=@`) pass
through; `/;,?` and everything else is percent-escaped. -/
def shouldEscapePathSegment (c : UInt8) : Bool :=
  if (97 ≤ c && c ≤ 122) || (65 ≤ c && c ≤ 90) || (48 ≤ c && c ≤ 57) then false
  else if c = 45 || c = 95 || c = 46 || c = 126 then false
  else if c = 36 || c = 38 || c = 43 || c = 44 || c = 47 ||
          c = 58 || c = 59 || c = 61 || c = 63 || c = 64 then
    c = 47 || c = 59 || c = 44 || c = 63
  else true

/-- Go `url.PathEscape`, applied byte-wise to the UTF-8 encoding. -/
def pathEscape (s : String) : String :=
  ⟨(s.toUTF8.toList.map fun b =>
      if shouldEscapePathSegment b then
        ['%', hexUpper (b.toNat / 16), hexUpper (b.toNat % 16)]
      else [Char.ofNat b.toNat]).flatten⟩

/-! ### handlers.go: directory index listing -/

/-- `DirectoryEntry` (handlers.go). -/
structure DirectoryEntry where
  name : String
  path : String
  isDir : Bool
  isMarkdown : Bool
deriving DecidableEq, Repr

/-- Loop body of `handleIndex` (handlers.go) for one `os.ReadDir` entry:
skip hidden names, keep directories and Markdown files, build the
percent-encoded URL path from the root-relative path of the entry. -/
def indexEntryOf (root dirPath : String) (nm : String) (isDir : Bool) :
    Option DirectoryEntry :=
  if goHasPrefix nm "." then none
  else
    let isMarkdown := !isDir && goHasSuffix (toLowerStr nm) ".md"
    if !isDir && !isMarkdown then none
    else
      let entryPath := joinPath dirPath nm
      let relEntryPath := goRel root entryPath
      let parts := (splitOnCh '/' relEntryPath.data).map String.mk
      let urlPath := "/" ++ strJoin "/" (parts.map pathEscape)
      let urlPath := if isDir then urlPath ++ "/" else urlPath
      some ⟨nm, urlPath, isDir, isMarkdown⟩

/-- Per-entry loop of `handleIndex` (handlers.go). `entries` is the
`os.ReadDir` result as (name, is-directory) pairs in directory order. -/
def indexEntriesCore (root dirPath : String) (entries : List (String × Bool)) :
    List DirectoryEntry :=
  entries.filterMap fun e => indexEntryOf root dirPath e.1 e.2

/-- Parent-directory (`..`) entry construction of `handleIndex`
(handlers.go): encode the root-relative path of `Dir(dirPath)`, skipping
empty and `.` parts. -/
def parentIndexEntry (root dirPath : String) : DirectoryEntry :=
  let parentDir := goDir dirPath
  let relParentPath := goRel root parentDir
  let parts := (splitOnCh '/' relParentPath.data).map String.mk
  let encodedParts := (parts.filter fun part => part ≠ "." ∧ part ≠ "").map pathEscape
  let parentURLPath :=
    if encodedParts = [] then "/" else "/" ++ strJoin "/" encodedParts ++ "/"
  ⟨"..", parentURLPath, true, false⟩

/-- Entry-list construction of `handleIndex` (handlers.go): the filtered,
encoded entries, with a synthetic `..` entry prepended unless the listed
directory is (after `Abs`) the served root itself. -/
def indexDirEntries (root dirPath : String) (entries : List (String × Bool)) :
    List DirectoryEntry :=
  let isAtRoot := goAbs dirPath == goAbs root
  let dirEntries := indexEntriesCore root dirPath entries
  if !isAtRoot then parentIndexEntry root dirPath :: dirEntries else dirEntries

/-! ### livereload.go: recursive directory watching -/

/-- A filesystem subtree as seen by the watcher: named regular files and
named directories with their children. -/
inductive FTree where
  | file (name : String)
  | dir (name : String) (children : List FTree)

/-- Name of a tree node. -/
def FTree.name : FTree → String
  | .file n => n
  | .dir n _ => n

/-- `os.Stat(...).IsDir()` on a tree node. -/
def FTree.isDir : FTree → Bool
  | .file _ => false
  | .dir _ _ => true

mutual

/-- `watchDirectory` (livereload.go:65-97) on the subtree rooted at the given
path: register the directory itself, then glob its children and recurse into
every non-hidden subdirectory (hidden = base name starting with `.`).
Returns the list of paths registered with the watcher. -/
def watchDirT : FTree → String → List String
  | .file _, p => [p]
  | .dir _ kids, p => p :: watchKidsT kids p

/-- Loop of `watchDirectory` over the glob results `p ++ "/" ++ name`. -/
def watchKidsT : List FTree → String → List String
  | [], _ => []
  | k :: ks, p =>
    (if k.isDir then
        if strHead? (goBase (p ++ "/" ++ k.name)) = some '.' then []
        else watchDirT k (p ++ "/" ++ k.name)
      else []) ++ watchKidsT ks p

end

/-- One raw fsnotify event: path plus whether the Write / Create bits of the
operation mask are set. -/
structure FsEvent where
  name : String
  isWrite : Bool
  isCreate : Bool

/-- One iteration of the dispatch loop `watchFiles` (livereload.go:100-133)
on an event. `statResult` is the `os.Stat` answer for `ev.name` (`some` the
subtree found there, `none` on error). Returns the reload tokens pushed to
the broadcast channel and the directory paths newly registered with the
watcher. -/
def watchFilesStep (ev : FsEvent) (statResult : Option FTree) :
    List String × List String :=
  let tokens := if ev.isWrite && (goExt ev.name == ".md") then ["reload"] else []
  let watched :=
    if ev.isCreate then
      match statResult with
      | some t =>
        if t.isDir then
          if strHead? (goBase ev.name) = some '.' then [] else watchDirT t ev.name
        else []
      | none => []
    else []
  (tokens, watched)

/-- Specification-side reachability: the paths `watchDirectory` must cover,
namely the starting directory and, recursively through non-hidden
subdirectories only, every directory below it. -/
inductive WatchReach : FTree → String → String → Prop where
  | here (t : FTree) (p : String) : WatchReach t p p
  | child {k : FTree} {kids : List FTree} {n p q : String} :
      k ∈ kids → k.isDir = true →
      strHead? (goBase (p ++ "/" ++ k.name)) ≠ some '.' →
      WatchReach k (p ++ "/" ++ k.name) q →
      WatchReach (.dir n kids) p q

/-! ### livereload.go: broadcast step -/

/-- One registered live-reload client: its identity and whether
`WriteMessage` on its connection succeeds. -/
structure WsClient where
  id : Nat
  writeOk : Bool
deriving DecidableEq, Repr

/-- Outcome of one broadcast: ids whose write succeeded, ids whose connection
was closed after a failed write, and the client set afterwards. -/
structure BroadcastResult where
  delivered : List Nat
  closed : List Nat
  remaining : List WsClient
deriving DecidableEq, Repr

/-- One `message := <-lr.broadcast` iteration of `broadcastMessages`
(livereload.go:136-158): the write is attempted on every client registered
at broadcast time; a failed write deletes that client from the set and
closes its connection, and iteration continues with the rest. -/
def broadcastStep : List WsClient → BroadcastResult
  | [] => ⟨[], [], []⟩
  | c :: rest =>
    let r := broadcastStep rest
    if c.writeOk then ⟨c.id :: r.delivered, r.closed, c :: r.remaining⟩
    else ⟨r.delivered, c.id :: r.closed, r.remaining⟩

/-! ### Specification-side notions used by the lemmas below -/

/-- Well-formedness of one cleaned path segment. -/
def SegWF (s : Seg) : Prop := s ≠ [] ∧ '/' ∉ s ∧ s ≠ ['.'] ∧ s ≠ ['.', '.']

instance (s : Seg) : Decidable (SegWF s) := by
  unfold SegWF
  infer_instance

/-- First character of the relative-path string rendered from `rs`. -/
def relHeadChar : List Seg → Option Char
  | [] => none
  | r :: _ => r.head?

/-- The containment condition of `isValidPath`, phrased on segment lists:
the relative walk from the root is nonempty and does not start with `.`
(which covers `.`, `..`, and hidden first segments at once). -/
def containOK (bs ts : List Seg) : Prop :=
  relSegs bs ts ≠ [] ∧ relHeadChar (relSegs bs ts) ≠ some '.'

/-- Append `x` to the last segment (or make it the only segment). -/
def appendLast (x : List Char) : List Seg → List Seg
  | [] => [x]
  | [s] => [s ++ x]
  | s :: rest => s :: appendLast x rest

/-! ## Lemmas about the path primitives -/

theorem strData_mk (l : List Char) : (String.mk l).data = l := rfl

theorem strMk_data (s : String) : String.mk s.data = s := rfl

theorem splitOnCh_ne_nil (sep : Char) (l : List Char) : splitOnCh sep l ≠ [] := by
  cases l with
  | nil => simp [splitOnCh]
  | cons c r =>
    simp only [splitOnCh]
    split
    · simp
    · split <;> simp

theorem splitOnCh_cons_sep (sep : Char) (r : List Char) :
    splitOnCh sep (sep :: r) = [] :: splitOnCh sep r := by
  simp [splitOnCh]

theorem splitOnCh_cons_of_ne (sep c : Char) (r : List Char) (hc : c ≠ sep) :
    splitOnCh sep (c :: r) =
      (c :: (splitOnCh sep r).headD []) :: (splitOnCh sep r).tail := by
  simp only [splitOnCh, if_neg hc]
  rcases h : splitOnCh sep r with _ | ⟨g, gs⟩
  · exact absurd h (splitOnCh_ne_nil sep r)
  · simp

theorem splitOnCh_no_sep (sep : Char) (l : List Char) (h : sep ∉ l) :
    splitOnCh sep l = [l] := by
  induction l with
  | nil => rfl
  | cons c r ih =>
    have hc : c ≠ sep := fun e => h (e ▸ List.mem_cons_self c r)
    have hr : splitOnCh sep r = [r] := ih fun m => h (List.mem_cons_of_mem _ m)
    rw [splitOnCh_cons_of_ne sep c r hc, hr]
    rfl

theorem splitOnCh_append (sep : Char) (a r : List Char) (ha : sep ∉ a) :
    splitOnCh sep (a ++ sep :: r) = a :: splitOnCh sep r := by
  induction a with
  | nil => simp [splitOnCh]
  | cons c as ih =>
    have hc : c ≠ sep := fun e => ha (e ▸ List.mem_cons_self c as)
    have has : sep ∉ as := fun m => ha (List.mem_cons_of_mem _ m)
    rw [List.cons_append, splitOnCh_cons_of_ne sep c _ hc, ih has]
    rfl

theorem splitOnCh_sep_not_mem (sep : Char) (l : List Char) :
    ∀ g ∈ splitOnCh sep l, sep ∉ g := by
  induction l with
  | nil =>
    intro g hg
    simp [splitOnCh] at hg
    simp [hg]
  | cons c r ih =>
    intro g hg
    by_cases hc : c = sep
    · subst hc
      simp only [splitOnCh, if_pos rfl] at hg
      rcases List.mem_cons.1 hg with h | h
      · subst h; simp
      · exact ih g h
    · rw [splitOnCh_cons_of_ne sep c r hc] at hg
      rcases h : splitOnCh sep r with _ | ⟨g0, gs⟩
      · exact absurd h (splitOnCh_ne_nil sep r)
      · rw [h] at hg
        simp only [List.headD_cons, List.tail_cons] at hg
        rcases List.mem_cons.1 hg with h1 | h1
        · subst h1
          intro hm
          rcases List.mem_cons.1 hm with h2 | h2
          · exact hc h2.symm
          · exact ih g0 (h ▸ List.mem_cons_self g0 gs) h2
        · exact ih g (h ▸ List.mem_cons_of_mem g0 h1)

theorem splitOnCh_concat_sep (sep : Char) (l : List Char) :
    splitOnCh sep (l ++ [sep]) = splitOnCh sep l ++ [[]] := by
  induction l with
  | nil => simp [splitOnCh]
  | cons c r ih =>
    by_cases hc : c = sep
    · subst hc
      rw [List.cons_append, splitOnCh_cons_sep, splitOnCh_cons_sep, ih]
      rfl
    · rw [List.cons_append, splitOnCh_cons_of_ne sep c _ hc,
        splitOnCh_cons_of_ne sep c _ hc, ih]
      rcases h : splitOnCh sep r with _ | ⟨g, gs⟩
      · exact absurd h (splitOnCh_ne_nil sep r)
      · simp

theorem cleanSegsAux_cons_drop (acc : List Seg) (x : Seg) (xs : List Seg)
    (h : x = [] ∨ x = ['.']) : cleanSegsAux acc (x :: xs) = cleanSegsAux acc xs := by
  simp only [cleanSegsAux, if_pos h]

theorem cleanSegsAux_cons_up (acc : List Seg) (xs : List Seg) :
    cleanSegsAux acc (['.', '.'] :: xs) = cleanSegsAux acc.tail xs := by
  simp only [cleanSegsAux]
  rw [if_neg (by rintro (e | e) <;> simp at e)]
  simp

theorem cleanSegsAux_cons_push (acc : List Seg) (x : Seg) (xs : List Seg)
    (h1 : ¬(x = [] ∨ x = ['.'])) (h2 : x ≠ ['.', '.']) :
    cleanSegsAux acc (x :: xs) = cleanSegsAux (x :: acc) xs := by
  simp only [cleanSegsAux, if_neg h1, if_neg h2]

theorem cleanSegsAux_all_wf (l : List Seg) :
    ∀ (acc : List Seg), (∀ s ∈ acc, SegWF s) → (∀ s ∈ l, '/' ∉ s) →
      ∀ s ∈ cleanSegsAux acc l, SegWF s := by
  induction l with
  | nil =>
    intro acc hacc _ s hs
    simp only [cleanSegsAux] at hs
    exact hacc s (List.mem_reverse.1 hs)
  | cons x xs ih =>
    intro acc hacc hl s hs
    simp only [cleanSegsAux] at hs
    by_cases h1 : x = [] ∨ x = ['.']
    · rw [if_pos h1] at hs
      exact ih acc hacc (fun t ht => hl t (List.mem_cons_of_mem _ ht)) s hs
    · rw [if_neg h1] at hs
      by_cases h2 : x = ['.', '.']
      · rw [if_pos h2] at hs
        exact ih acc.tail (fun t ht => hacc t (List.mem_of_mem_tail ht))
          (fun t ht => hl t (List.mem_cons_of_mem _ ht)) s hs
      · rw [if_neg h2] at hs
        refine ih (x :: acc) ?_ (fun t ht => hl t (List.mem_cons_of_mem _ ht)) s hs
        intro t ht
        rcases List.mem_cons.1 ht with h | h
        · subst h
          exact ⟨fun e => h1 (Or.inl e), hl t (List.mem_cons_self _ _),
            fun e => h1 (Or.inr e), h2⟩
        · exact hacc t h

theorem segsOf_wf (p : String) : ∀ s ∈ segsOf p, SegWF s :=
  cleanSegsAux_all_wf _ [] (by simp) (splitOnCh_sep_not_mem '/' p.data)

theorem cleanSegsAux_of_wf (l : List Seg) :
    ∀ (acc : List Seg), (∀ s ∈ l, SegWF s) → cleanSegsAux acc l = acc.reverse ++ l := by
  induction l with
  | nil => intro acc _; simp [cleanSegsAux]
  | cons x xs ih =>
    intro acc hl
    have hx := hl x (List.mem_cons_self x xs)
    simp only [cleanSegsAux]
    rw [if_neg (by rintro (e | e); exacts [hx.1 e, hx.2.2.1 e]), if_neg hx.2.2.2,
      ih (x :: acc) (fun t ht => hl t (List.mem_cons_of_mem _ ht))]
    simp

theorem cleanSegsAux_concat_nil (l : List Seg) :
    ∀ (acc : List Seg), cleanSegsAux acc (l ++ [[]]) = cleanSegsAux acc l := by
  induction l with
  | nil =>
    intro acc
    rw [List.nil_append, cleanSegsAux_cons_drop acc [] [] (Or.inl rfl)]
  | cons x xs ih =>
    intro acc
    rw [List.cons_append]
    by_cases h1 : x = [] ∨ x = ['.']
    · rw [cleanSegsAux_cons_drop acc x _ h1, cleanSegsAux_cons_drop acc x xs h1, ih]
    · by_cases h2 : x = ['.', '.']
      · subst h2
        rw [cleanSegsAux_cons_up, cleanSegsAux_cons_up, ih]
      · rw [cleanSegsAux_cons_push acc x _ h1 h2, cleanSegsAux_cons_push acc x xs h1 h2, ih]

theorem joinSegs_cons (s : Seg) (rest : List Seg) (h : rest ≠ []) :
    joinSegs (s :: rest) = s ++ '/' :: joinSegs rest := by
  cases rest with
  | nil => exact absurd rfl h
  | cons t ts => rfl

theorem joinSegs_concat (ss : List Seg) (x : Seg) (h : ss ≠ []) :
    joinSegs (ss ++ [x]) = joinSegs ss ++ '/' :: x := by
  induction ss with
  | nil => exact absurd rfl h
  | cons s rest ih =>
    cases rest with
    | nil => rfl
    | cons t ts =>
      rw [List.cons_append, joinSegs_cons s ((t :: ts) ++ [x]) (by simp),
        joinSegs_cons s (t :: ts) (by simp), ih (by simp)]
      simp

theorem splitOnCh_joinSegs (ss : List Seg) (h : ss ≠ [])
    (hsep : ∀ s ∈ ss, '/' ∉ s) : splitOnCh '/' (joinSegs ss) = ss := by
  induction ss with
  | nil => exact absurd rfl h
  | cons s rest ih =>
    cases rest with
    | nil => exact splitOnCh_no_sep _ _ (hsep s (List.mem_cons_self _ _))
    | cons t ts =>
      rw [joinSegs_cons s (t :: ts) (by simp),
        splitOnCh_append '/' s _ (hsep s (List.mem_cons_self _ _)),
        ih (by simp) (fun u hu => hsep u (List.mem_cons_of_mem _ hu))]

theorem segsOf_renderRooted (ss : List Seg) (h : ∀ s ∈ ss, SegWF s) :
    segsOf (renderRooted ss) = ss := by
  simp only [segsOf, renderRooted, strData_mk]
  rw [show splitOnCh '/' ('/' :: joinSegs ss) = [] :: splitOnCh '/' (joinSegs ss) from by
    simp [splitOnCh]]
  cases hss : ss with
  | nil => rfl
  | cons s rest =>
    rw [← hss, splitOnCh_joinSegs ss (by rw [hss]; simp) (fun u hu => (h u hu).2.1)]
    show cleanSegsAux [] ([] :: ss) = ss
    simp only [cleanSegsAux, if_pos (Or.inl rfl)]
    simpa using cleanSegsAux_of_wf ss [] h

theorem goClean_eq_render (p : String) : goClean p = renderRooted (segsOf p) := rfl

theorem segsOf_goClean (p : String) : segsOf (goClean p) = segsOf p :=
  segsOf_renderRooted _ (segsOf_wf p)

theorem segsOf_joinPath (a b : String) : segsOf (joinPath a b) = segsOf (a ++ "/" ++ b) :=
  segsOf_goClean _

theorem segsOf_append_slash (p : String) : segsOf (p ++ "/") = segsOf p := by
  simp only [segsOf, String.data_append]
  show cleanSegsAux [] (splitOnCh '/' (p.data ++ ['/'])) = _
  rw [splitOnCh_concat_sep, cleanSegsAux_concat_nil]

/-! ## Lemmas about relative paths and the containment check -/

theorem relSegs_nil_left (ts : List Seg) : relSegs [] ts = ts := by
  cases ts <;> rfl

theorem relSegs_self (l : List Seg) : relSegs l l = [] := by
  induction l with
  | nil => rfl
  | cons b bs ih => simp [relSegs, ih]

theorem relSegs_append (l t : List Seg) : relSegs l (l ++ t) = t := by
  induction l with
  | nil => rw [List.nil_append, relSegs_nil_left]
  | cons b bs ih =>
    rw [List.cons_append]
    simp [relSegs, ih]

theorem relSegs_elem (bs : List Seg) :
    ∀ (ts : List Seg), ∀ x ∈ relSegs bs ts, x = ['.', '.'] ∨ x ∈ ts := by
  induction bs with
  | nil =>
    intro ts x hx
    rw [relSegs_nil_left] at hx
    exact Or.inr hx
  | cons b bs ih =>
    intro ts x hx
    cases ts with
    | nil =>
      simp only [relSegs] at hx
      rcases List.mem_map.1 hx with ⟨_, _, e⟩
      exact Or.inl e.symm
    | cons t ts' =>
      simp only [relSegs] at hx
      by_cases h : b = t
      · rw [if_pos h] at hx
        rcases ih ts' x hx with h1 | h1
        · exact Or.inl h1
        · exact Or.inr (List.mem_cons_of_mem _ h1)
      · rw [if_neg h] at hx
        rcases List.mem_append.1 hx with h1 | h1
        · rcases List.mem_map.1 h1 with ⟨_, _, e⟩
          exact Or.inl e.symm
        · exact Or.inr h1

theorem joinSegs_head? (r : Seg) (rest : List Seg) (h : r ≠ []) :
    (joinSegs (r :: rest)).head? = r.head? := by
  cases rest with
  | nil => rfl
  | cons t ts =>
    rw [joinSegs_cons r (t :: ts) (by simp)]
    exact List.head?_append_of_ne_nil _ h

theorem isValidPath_iff_containOK (root fp : String) :
    isValidPath root fp = true ↔ containOK (segsOf root) (segsOf fp) := by
  have hq : goRel (goAbs root) (goAbs fp)
      = (if relSegs (segsOf root) (segsOf fp) = [] then "."
         else String.mk (joinSegs (relSegs (segsOf root) (segsOf fp)))) := by
    simp only [goRel, goAbs, segsOf_goClean]
  rcases hrs : relSegs (segsOf root) (segsOf fp) with _ | ⟨r, rest⟩
  · rw [hrs] at hq
    simp only [if_pos rfl] at hq
    constructor
    · intro h
      exfalso
      simp only [isValidPath, hq] at h
      simp at h
    · intro hco
      exact absurd hrs hco.1
  · have hrne : r ≠ [] := by
      rcases relSegs_elem (segsOf root) (segsOf fp) r
          (hrs ▸ List.mem_cons_self r rest) with h | h
      · subst h; simp
      · exact (segsOf_wf fp r h).1
    rw [hrs] at hq
    rw [if_neg (by simp)] at hq
    have hval : isValidPath root fp =
        ((String.mk (joinSegs (r :: rest)) != "..") &&
         (String.mk (joinSegs (r :: rest)) != ".") &&
         decide (0 < (String.mk (joinSegs (r :: rest))).length) &&
         (strHead? (String.mk (joinSegs (r :: rest))) != some '.')) := by
      simp only [isValidPath, hq]
    have hhead : strHead? (String.mk (joinSegs (r :: rest))) = r.head? := by
      simp only [strHead?, strData_mk]
      exact joinSegs_head? r rest hrne
    rw [hval]
    simp only [containOK, hrs, relHeadChar, Bool.and_eq_true, bne_iff_ne, ne_eq,
      decide_eq_true_eq]
    constructor
    · rintro ⟨⟨⟨_, _⟩, _⟩, h4⟩
      rw [hhead] at h4
      exact ⟨by simp, h4⟩
    · rintro ⟨_, h2⟩
      have h4 : ¬(strHead? (String.mk (joinSegs (r :: rest))) = some '.') := by
        rw [hhead]; exact h2
      refine ⟨⟨⟨?_, ?_⟩, ?_⟩, h4⟩
      · intro e; exact h4 (by rw [e]; rfl)
      · intro e; exact h4 (by rw [e]; rfl)
      · rcases hr0 : r.head? with _ | c
        · exact absurd (List.head?_eq_none_iff.1 hr0) hrne
        · have hd : (String.mk (joinSegs (r :: rest))).data.head? = some c := by
            rw [strData_mk, joinSegs_head? r rest hrne, hr0]
          show 0 < (String.mk (joinSegs (r :: rest))).data.length
          cases hj : (String.mk (joinSegs (r :: rest))).data with
          | nil => rw [hj] at hd; simp at hd
          | cons a l => simp

/-! ## Appending `".md"` to a path (the implicit-extension candidate) -/

theorem appendLast_ne_nil (x : List Char) (ss : List Seg) : appendLast x ss ≠ [] := by
  cases ss with
  | nil => simp [appendLast]
  | cons s rest => cases rest <;> simp [appendLast]

theorem joinSegs_appendLast (x : List Char) (ss : List Seg) :
    joinSegs (appendLast x ss) = joinSegs ss ++ x := by
  induction ss with
  | nil => rfl
  | cons s rest ih =>
    cases rest with
    | nil => rfl
    | cons t ts =>
      rw [show appendLast x (s :: t :: ts) = s :: appendLast x (t :: ts) from rfl,
        joinSegs_cons _ _ (appendLast_ne_nil x (t :: ts)),
        joinSegs_cons s (t :: ts) (by simp), ih]
      simp

theorem appendLast_md_wf (ss : List Seg) (h : ∀ s ∈ ss, SegWF s) :
    ∀ s ∈ appendLast ['.', 'm', 'd'] ss, SegWF s := by
  induction ss with
  | nil =>
    intro s hs
    simp only [appendLast, List.mem_singleton] at hs
    subst hs
    refine ⟨by simp, by decide, by decide, by decide⟩
  | cons u rest ih =>
    intro s hs
    cases rest with
    | nil =>
      simp only [appendLast, List.mem_singleton] at hs
      subst hs
      have hu := h u (List.mem_cons_self _ _)
      refine ⟨by simp [hu.1], ?_, ?_, ?_⟩
      · intro hm
        rcases List.mem_append.1 hm with hm | hm
        · exact hu.2.1 hm
        · simp at hm
      · intro e
        have := congrArg List.length e
        simp at this
      · intro e
        have := congrArg List.length e
        simp at this
    | cons t ts =>
      rw [show appendLast ['.', 'm', 'd'] (u :: t :: ts)
          = u :: appendLast ['.', 'm', 'd'] (t :: ts) from rfl] at hs
      rcases List.mem_cons.1 hs with hs | hs
      · exact hs ▸ h u (List.mem_cons_self _ _)
      · exact ih (fun v hv => h v (List.mem_cons_of_mem _ hv)) s hs

theorem renderRooted_append_md (ss : List Seg) :
    renderRooted ss ++ ".md" = renderRooted (appendLast ['.', 'm', 'd'] ss) := by
  apply String.ext
  rw [String.data_append]
  show ('/' :: joinSegs ss) ++ ['.', 'm', 'd'] = '/' :: joinSegs (appendLast ['.', 'm', 'd'] ss)
  rw [joinSegs_appendLast]
  simp

theorem containOK_nil_right (bs : List Seg) : ¬ containOK bs [] := by
  cases bs with
  | nil => rintro ⟨h1, _⟩; exact h1 rfl
  | cons b bs' =>
    rintro ⟨_, h2⟩
    simp only [relSegs, relHeadChar] at h2
    exact h2 rfl

theorem containOK_mismatch (b t : Seg) (bs ts : List Seg) (h : b ≠ t) :
    ¬ containOK (b :: bs) (t :: ts) := by
  rintro ⟨_, h2⟩
  simp only [relSegs, if_neg h, relHeadChar] at h2
  exact h2 rfl

theorem containOK_cons_iff (b : Seg) (bs ts : List Seg) :
    containOK (b :: bs) (b :: ts) ↔ containOK bs ts := by
  simp [containOK, relSegs]

theorem containOK_nil_left (ts : List Seg) :
    containOK [] ts ↔ (ts ≠ [] ∧ relHeadChar ts ≠ some '.') := by
  simp only [containOK, relSegs_nil_left]

theorem containOK_appendLast_md (ts : List Seg) :
    ∀ (bs : List Seg), (∀ s ∈ ts, SegWF s) →
      (containOK bs (appendLast ['.', 'm', 'd'] ts) ↔ containOK bs ts) := by
  induction ts with
  | nil =>
    intro bs _
    constructor
    · rintro ⟨h1, h2⟩
      exfalso
      cases bs with
      | nil =>
        simp only [appendLast, relSegs_nil_left, relHeadChar] at h2
        exact h2 rfl
      | cons b bs' =>
        by_cases hb : b = ['.', 'm', 'd']
        · subst hb
          rw [show appendLast ['.', 'm', 'd'] ([] : List Seg) = [['.', 'm', 'd']] from rfl]
            at h1 h2
          simp only [relSegs, if_pos rfl] at h1 h2
          exact containOK_nil_right bs' ⟨h1, h2⟩
        · exact containOK_mismatch _ _ bs' [] hb ⟨h1, h2⟩
    · intro h
      exact absurd h (containOK_nil_right bs)
  | cons t ts' ih =>
    intro bs hwf
    have htwf := hwf t (List.mem_cons_self _ _)
    cases ts' with
    | nil =>
      rw [show appendLast ['.', 'm', 'd'] [t] = [t ++ ['.', 'm', 'd']] from rfl]
      have htne : t ≠ t ++ ['.', 'm', 'd'] := by
        intro e
        have := congrArg List.length e
        simp at this
      cases bs with
      | nil =>
        rw [containOK_nil_left, containOK_nil_left]
        simp only [relHeadChar]
        constructor
        · rintro ⟨_, h2⟩
          exact ⟨by simp, by rwa [List.head?_append_of_ne_nil _ htwf.1] at h2⟩
        · rintro ⟨_, h2⟩
          exact ⟨by simp, by rwa [List.head?_append_of_ne_nil _ htwf.1]⟩
      | cons b bs' =>
        by_cases hb : b = t
        · subst hb
          rw [containOK_cons_iff]
          constructor
          · intro h
            exact absurd h (containOK_mismatch _ _ bs' [] htne)
          · intro h
            exact absurd h (containOK_nil_right bs')
        · by_cases hb2 : b = t ++ ['.', 'm', 'd']
          · subst hb2
            rw [containOK_cons_iff]
            constructor
            · intro h
              exact absurd h (containOK_nil_right bs')
            · intro h
              exact absurd h (containOK_mismatch _ _ bs' [] (fun e => htne e.symm))
          · constructor
            · intro h
              exact absurd h (containOK_mismatch _ _ bs' _ hb2)
            · intro h
              exact absurd h (containOK_mismatch _ _ bs' _ hb)
    | cons u us =>
      rw [show appendLast ['.', 'm', 'd'] (t :: u :: us)
          = t :: appendLast ['.', 'm', 'd'] (u :: us) from rfl]
      cases bs with
      | nil =>
        rw [containOK_nil_left, containOK_nil_left]
        simp only [relHeadChar]
        constructor
        · rintro ⟨_, h2⟩; exact ⟨by simp, h2⟩
        · rintro ⟨_, h2⟩; exact ⟨by simp, h2⟩
      | cons b bs' =>
        by_cases hb : b = t
        · subst hb
          rw [containOK_cons_iff, containOK_cons_iff]
          exact ih bs' (fun v hv => hwf v (List.mem_cons_of_mem _ hv))
        · constructor
          · intro h
            exact absurd h (containOK_mismatch _ _ bs' _ hb)
          · intro h
            exact absurd h (containOK_mismatch _ _ bs' _ hb)

theorem isValidPath_clean_append_md (root : String) (q : String) :
    isValidPath root (goClean q ++ ".md") = isValidPath root (goClean q) := by
  have h1 : isValidPath root (goClean q ++ ".md") = true
      ↔ isValidPath root (goClean q) = true := by
    rw [isValidPath_iff_containOK, isValidPath_iff_containOK, segsOf_goClean,
      goClean_eq_render, renderRooted_append_md,
      segsOf_renderRooted _ (appendLast_md_wf _ (segsOf_wf q))]
    exact containOK_appendLast_md (segsOf q) (segsOf root) (segsOf_wf q)
  cases h2 : isValidPath root (goClean q ++ ".md") <;>
    cases h3 : isValidPath root (goClean q) <;> simp_all

theorem isValidPath_join_append_md (root a b : String) :
    isValidPath root (joinPath a b ++ ".md") = isValidPath root (joinPath a b) :=
  isValidPath_clean_append_md root (a ++ "/" ++ b)

/-! ## String prefix/suffix helper lemmas -/

theorem singleton_isPrefixOf_iff (c : Char) (l : List Char) :
    [c].isPrefixOf l = true ↔ l.head? = some c := by
  cases l with
  | nil => simp [List.isPrefixOf]
  | cons a as =>
    simp only [List.isPrefixOf, Bool.and_eq_true, beq_iff_eq, List.head?_cons,
      Option.some.injEq]
    constructor
    · rintro ⟨h, _⟩; exact h.symm
    · intro h; exact ⟨h.symm, trivial⟩

theorem goHasSuffix_slash_iff (s : String) :
    goHasSuffix s "/" = true ↔ s.data.getLast? = some '/' := by
  show (['/'].reverse.isPrefixOf s.data.reverse) = true ↔ _
  rw [show (['/'] : List Char).reverse = ['/'] from rfl, singleton_isPrefixOf_iff,
    List.head?_reverse]

theorem stripLeadSlash_suffix (p : String) (h : goHasSuffix p "/" = false) :
    goHasSuffix (stripLeadSlash p) "/" = false := by
  have h' : ¬(p.data.getLast? = some '/') := by
    intro e
    rw [← goHasSuffix_slash_iff, h] at e
    exact Bool.false_ne_true e
  apply Bool.eq_false_iff.2
  intro e
  rw [goHasSuffix_slash_iff] at e
  unfold stripLeadSlash at e
  by_cases hc : 0 < p.length ∧ strHead? p = some '/'
  · rw [if_pos hc] at e
    show False
    rcases hd : p.data with _ | ⟨a, l⟩
    · simp [strTail, hd] at e
    · rcases hl : l with _ | ⟨b, r⟩
      · subst hl
        simp [strTail, hd] at e
      · subst hl
        apply h'
        rw [hd, List.getLast?_cons_cons]
        simpa [strTail, hd] using e
  · rw [if_neg hc] at e
    exact h' e

theorem isPrefixOf_append_self (l t : List Char) : l.isPrefixOf (l ++ t) = true := by
  induction l with
  | nil => simp [List.isPrefixOf]
  | cons a as ih => simp [List.isPrefixOf, ih]

theorem goHasPrefix_append (pre rest : String) : goHasPrefix (pre ++ rest) pre = true := by
  show pre.data.isPrefixOf (pre ++ rest).data = true
  rw [String.data_append]
  exact isPrefixOf_append_self _ _

theorem goTrimPrefix_append (pre rest : String) :
    goTrimPrefix (pre ++ rest) pre = rest := by
  unfold goTrimPrefix
  rw [if_pos (goHasPrefix_append pre rest)]
  apply String.ext
  rw [strData_mk, String.data_append, List.drop_left]

theorem eq_append_of_isPrefixOf (l : List Char) :
    ∀ (m : List Char), l.isPrefixOf m = true → m = l ++ m.drop l.length := by
  induction l with
  | nil => intro m _; simp
  | cons a as ih =>
    intro m h
    cases m with
    | nil => simp [List.isPrefixOf] at h
    | cons b bs =>
      simp only [List.isPrefixOf, Bool.and_eq_true, beq_iff_eq] at h
      obtain ⟨rfl, h2⟩ := h
      simpa using ih bs h2

theorem goHasPrefix_decomp (p pre : String) (h : goHasPrefix p pre = true) :
    p = pre ++ goTrimPrefix p pre := by
  unfold goTrimPrefix
  rw [if_pos h]
  apply String.ext
  rw [String.data_append, strData_mk]
  exact eq_append_of_isPrefixOf _ _ h

/-! ## Claims -/

/-- Claim C1, counterexample: the directory classification branch of
`handleRequest` runs before any containment check, so a request whose
resolved candidate is an existing directory outside the served root is
classified as `Index` of that outside directory — not `NotFound` and not
forbidden. With root `/a/b`, request path `/../` resolves to the directory
`/a`, which fails `isValidPath`, yet the response is its index page. -/
theorem c1_counterexample :
    handleRequest ⟨[("/a", true), ("/a/b", true)]⟩ "/a/b" "/../"
        = Response.indexPage "/a" ∧
    isValidPath "/a/b" "/a" = false := by
  constructor
  · rfl
  · rfl

/-- Claim C1 (amended): whenever the resolved candidate fails the
containment check `isValidPath` and is not an existing directory, the
response is forbidden — never not-found and never a `Markdown`/`Asset`
classification. (The directory/Index branch performs no containment check;
see the counterexample.) -/
theorem c1_contain_check_forbidden (fs : Fsys) (root urlPath : String)
    (hne : urlPath ≠ "/")
    (hnd : ¬ statNode fs (joinPath root (stripLeadSlash urlPath)) = some true)
    (hnv : isValidPath root (joinPath root (stripLeadSlash urlPath)) = false) :
    handleRequest fs root urlPath = Response.forbidden := by
  have hsf : handleStaticFile fs root (joinPath root (stripLeadSlash urlPath))
      = Response.forbidden := by
    unfold handleStaticFile
    rw [hnv]
    rfl
  simp only [handleRequest, if_neg hne, if_neg hnd]
  by_cases hext : goExt (joinPath root (stripLeadSlash urlPath)) = ".md"
  · rw [if_pos hext, hnv, if_neg (by simp)]
    exact hsf
  · rw [if_neg hext]
    by_cases hext2 : goExt (joinPath root (stripLeadSlash urlPath)) = ""
    · rw [if_pos hext2, isValidPath_join_append_md, hnv, if_neg (by simp)]
      exact hsf
    · rw [if_neg hext2]
      exact hsf

/-- Witness for `c1_contain_check_forbidden` at root `/a/b` and request
`/../etc`, whose candidate `/a/etc` escapes the root. -/
theorem c1_contain_check_forbidden_witness :
    ("/../etc" : String) ≠ "/" ∧
    ¬ statNode ⟨[("/a", true), ("/a/b", true)]⟩ (joinPath "/a/b" (stripLeadSlash "/../etc"))
        = some true ∧
    isValidPath "/a/b" (joinPath "/a/b" (stripLeadSlash "/../etc")) = false ∧
    handleRequest ⟨[("/a", true), ("/a/b", true)]⟩ "/a/b" "/../etc" = Response.forbidden :=
  ⟨by decide, by decide, by decide,
    c1_contain_check_forbidden _ _ _ (by decide) (by decide) (by decide)⟩

/-- Claim C2: implicit extension resolution. If the joined candidate has no
extension and does not exist, while `candidate ++ ".md"` passes the
containment check and exists as a regular file, the request is classified
as `Markdown` of the candidate-plus-`".md"` file. -/
theorem c2_implicit_md (fs : Fsys) (root urlPath : String)
    (hext : goExt (joinPath root (stripLeadSlash urlPath)) = "")
    (hnostat : statNode fs (joinPath root (stripLeadSlash urlPath)) = none)
    (hvalid : isValidPath root (joinPath root (stripLeadSlash urlPath) ++ ".md") = true)
    (hexists : statNode fs (joinPath root (stripLeadSlash urlPath) ++ ".md") = some false) :
    handleRequest fs root urlPath
      = Response.markdownPage (joinPath root (stripLeadSlash urlPath) ++ ".md") := by
  by_cases hne : urlPath = "/"
  · exfalso
    subst hne
    have hstrip : stripLeadSlash "/" = "" := rfl
    rw [hstrip] at hvalid
    have hsegs : segsOf (joinPath root "") = segsOf root := by
      rw [segsOf_joinPath, show root ++ "/" ++ "" = root ++ "/" from by simp,
        segsOf_append_slash]
    have hfalse : isValidPath root (joinPath root "" ++ ".md") = false := by
      rw [isValidPath_join_append_md]
      apply Bool.eq_false_iff.2
      intro e
      rw [isValidPath_iff_containOK, hsegs] at e
      exact e.1 (relSegs_self _)
    rw [hfalse] at hvalid
    exact Bool.false_ne_true hvalid
  · simp only [handleRequest, if_neg hne,
      if_neg (show ¬ statNode fs (joinPath root (stripLeadSlash urlPath)) = some true by
        rw [hnostat]; simp)]
    rw [if_neg (by rw [hext]; decide), if_pos hext, if_pos hvalid]

/-- Witness for `c2_implicit_md`: root `/r` containing `d/` and `d/guide.md`
but no `d/guide`; requesting `/d/guide` yields `Markdown(/r/d/guide.md)`. -/
theorem c2_implicit_md_witness :
    goExt (joinPath "/r" (stripLeadSlash "/d/guide")) = "" ∧
    statNode ⟨[("/r", true), ("/r/d", true), ("/r/d/guide.md", false)]⟩
        (joinPath "/r" (stripLeadSlash "/d/guide")) = none ∧
    isValidPath "/r" (joinPath "/r" (stripLeadSlash "/d/guide") ++ ".md") = true ∧
    statNode ⟨[("/r", true), ("/r/d", true), ("/r/d/guide.md", false)]⟩
        (joinPath "/r" (stripLeadSlash "/d/guide") ++ ".md") = some false ∧
    handleRequest ⟨[("/r", true), ("/r/d", true), ("/r/d/guide.md", false)]⟩ "/r" "/d/guide"
        = Response.markdownPage (joinPath "/r" (stripLeadSlash "/d/guide") ++ ".md") :=
  ⟨by decide, by decide, by decide, by decide,
    c2_implicit_md _ _ _ (by decide) (by decide) (by decide) (by decide)⟩

/-- Claim C6: a request whose candidate is an existing directory is
redirected to the same path with a trailing separator when it lacks one;
with the separator present it yields the index of that directory (and the
bare root path `/` yields the index of the served root). -/
theorem c6_dir_redirect_then_index (fs : Fsys) (root urlPath : String)
    (hdir : statNode fs (joinPath root (stripLeadSlash urlPath)) = some true) :
    (goHasSuffix urlPath "/" = false →
      handleRequest fs root urlPath = Response.redirect (urlPath ++ "/")) ∧
    (goHasSuffix urlPath "/" = true → urlPath ≠ "/" →
      handleRequest fs root urlPath
        = Response.indexPage (joinPath root (stripLeadSlash urlPath))) ∧
    (urlPath = "/" → handleRequest fs root urlPath = Response.indexPage root) := by
  refine ⟨?_, ?_, ?_⟩
  · intro hsfx
    have hne : urlPath ≠ "/" := by
      intro e
      subst e
      exact absurd hsfx (by decide)
    simp only [handleRequest, if_neg hne, if_pos hdir]
    rw [if_pos]
    rw [stripLeadSlash_suffix urlPath hsfx, hsfx]
    rfl
  · intro hsfx hne
    simp only [handleRequest, if_neg hne, if_pos hdir]
    rw [if_neg]
    rw [hsfx]
    simp
  · intro e
    subst e
    simp [handleRequest]

/-- Witness for `c6_dir_redirect_then_index` on the directory `/r/d`. -/
theorem c6_dir_redirect_then_index_witness :
    statNode ⟨[("/r", true), ("/r/d", true)]⟩ (joinPath "/r" (stripLeadSlash "/d"))
        = some true ∧
    goHasSuffix "/d" "/" = false ∧
    handleRequest ⟨[("/r", true), ("/r/d", true)]⟩ "/r" "/d" = Response.redirect "/d/" ∧
    handleRequest ⟨[("/r", true), ("/r/d", true)]⟩ "/r" "/d/"
        = Response.indexPage (joinPath "/r" (stripLeadSlash "/d/")) := by
  refine ⟨by decide, by decide, ?_, ?_⟩
  · exact (c6_dir_redirect_then_index _ _ _ (by decide)).1 (by decide)
  · exact (c6_dir_redirect_then_index _ _ "/d/" (by decide)).2.1 (by decide) (by decide)

/-- Claim C7: when live-reload initialisation fails (construction or start),
the hub is absent for the session but the server is still constructed with
the asset and content routes registered, and every request is served exactly
as by a server with live reload disabled. -/
theorem c7_lr_failure_degrades (init : LRInit) (h : init ≠ LRInit.ok) :
    (newServer true init).liveReload = false ∧
    "/assets/" ∈ (newServer true init).routes ∧
    "/" ∈ (newServer true init).routes ∧
    ∀ (fs : Fsys) (root p : String),
      serveHTTP (newServer true init) fs root p
        = serveHTTP (newServer false LRInit.ok) fs root p := by
  have hlr : (newServer true init).liveReload = false := by
    cases init with
    | ok => exact absurd rfl h
    | constructFail => rfl
    | startFail => rfl
  refine ⟨hlr, ?_, ?_, ?_⟩
  · cases init <;> simp [newServer]
  · cases init <;> simp [newServer]
  · intro fs root p
    simp only [serveHTTP, hlr, show (newServer false LRInit.ok).liveReload = false from rfl]

/-- Witness for `c7_lr_failure_degrades` at a failed hub construction. -/
theorem c7_lr_failure_degrades_witness :
    LRInit.constructFail ≠ LRInit.ok ∧
    (newServer true LRInit.constructFail).liveReload = false ∧
    "/assets/" ∈ (newServer true LRInit.constructFail).routes ∧
    "/" ∈ (newServer true LRInit.constructFail).routes ∧
    serveHTTP (newServer true LRInit.constructFail) ⟨[("/r", true)]⟩ "/r" "/livereload"
      = serveHTTP (newServer false LRInit.ok) ⟨[("/r", true)]⟩ "/r" "/livereload" := by
  have h := c7_lr_failure_degrades LRInit.constructFail (by decide)
  exact ⟨by decide, h.1, h.2.1, h.2.2.1, h.2.2.2 _ _ _⟩

/-- Claim C8: the page title of a served Markdown file is the text of the
first level-1 heading line (a line whose trimmed form starts with `"# "`),
and when no such line exists it is the file's base name with its `.md`
suffix removed. -/
theorem c8_extract_title (content filename : String) :
    extractTitle content filename =
      (match (splitLines content).find? (fun l => goHasPrefix (trimSpace l) "# ") with
       | some l => goTrimPrefix (trimSpace l) "# "
       | none => goTrimSuffix filename ".md") := by
  unfold extractTitle
  induction splitLines content with
  | nil => rfl
  | cons l ls ih =>
    by_cases h : goHasPrefix (trimSpace l) "# " = true
    · rw [show extractTitleLines filename (l :: ls) = goTrimPrefix (trimSpace l) "# " from by
        simp only [extractTitleLines]; rw [if_pos h]]
      rw [show List.find? (fun s => goHasPrefix (trimSpace s) "# ") (l :: ls) = some l from by
        simp [List.find?_cons, h]]
    · rw [show extractTitleLines filename (l :: ls) = extractTitleLines filename ls from by
        simp only [extractTitleLines]; rw [if_neg h]]
      rw [show List.find? (fun s => goHasPrefix (trimSpace s) "# ") (l :: ls)
          = List.find? (fun s => goHasPrefix (trimSpace s) "# ") ls from by
        rw [Bool.not_eq_true] at h
        simp [List.find?_cons, h], ih]

/-- Claim C4: in one broadcast step over the clients registered at broadcast
time, the token write is attempted on every client; exactly the clients
whose write fails are removed and closed, and every other client has the
token delivered — one failure never blocks the rest. -/
theorem c4_broadcast_step (clients : List WsClient) :
    (broadcastStep clients).delivered
        = (clients.filter (fun c => c.writeOk)).map (fun c => c.id) ∧
    (broadcastStep clients).closed
        = (clients.filter (fun c => !c.writeOk)).map (fun c => c.id) ∧
    (broadcastStep clients).remaining = clients.filter (fun c => c.writeOk) ∧
    (∀ c ∈ clients, c.writeOk = false →
      c ∉ (broadcastStep clients).remaining ∧ c.id ∈ (broadcastStep clients).closed) ∧
    (∀ c ∈ clients, c.writeOk = true → c.id ∈ (broadcastStep clients).delivered) := by
  have key : ∀ (l : List WsClient),
      (broadcastStep l).delivered = (l.filter (fun c => c.writeOk)).map (fun c => c.id) ∧
      (broadcastStep l).closed = (l.filter (fun c => !c.writeOk)).map (fun c => c.id) ∧
      (broadcastStep l).remaining = l.filter (fun c => c.writeOk) := by
    intro l
    induction l with
    | nil => exact ⟨rfl, rfl, rfl⟩
    | cons c rest ih =>
      rcases ih with ⟨i1, i2, i3⟩
      by_cases hc : c.writeOk
      · simp [broadcastStep, hc, i1, i2, i3, List.filter_cons]
      · simp [broadcastStep, hc, i1, i2, i3, List.filter_cons]
  rcases key clients with ⟨k1, k2, k3⟩
  refine ⟨k1, k2, k3, ?_, ?_⟩
  · intro c hc hw
    constructor
    · rw [k3]
      intro hmem
      rcases List.mem_filter.1 hmem with ⟨_, hpred⟩
      rw [hw] at hpred
      exact Bool.false_ne_true hpred
    · rw [k2]
      exact List.mem_map.2 ⟨c, List.mem_filter.2 ⟨hc, by rw [hw]; rfl⟩, rfl⟩
  · intro c hc hw
    rw [k1]
    exact List.mem_map.2 ⟨c, List.mem_filter.2 ⟨hc, hw⟩, rfl⟩

/-- Witness for `c4_broadcast_step`: three clients, the middle write fails;
it alone is closed and removed, 1 and 3 are delivered. -/
theorem c4_broadcast_step_witness :
    (broadcastStep [⟨1, true⟩, ⟨2, false⟩, ⟨3, true⟩]).delivered
        = (([⟨1, true⟩, ⟨2, false⟩, ⟨3, true⟩] : List WsClient).filter
            (fun c => c.writeOk)).map (fun c => c.id) ∧
    (broadcastStep [⟨1, true⟩, ⟨2, false⟩, ⟨3, true⟩]).closed
        = (([⟨1, true⟩, ⟨2, false⟩, ⟨3, true⟩] : List WsClient).filter
            (fun c => !c.writeOk)).map (fun c => c.id) ∧
    (broadcastStep [⟨1, true⟩, ⟨2, false⟩, ⟨3, true⟩]).remaining
        = ([⟨1, true⟩, ⟨2, false⟩, ⟨3, true⟩] : List WsClient).filter
            (fun c => c.writeOk) ∧
    (∀ c ∈ ([⟨1, true⟩, ⟨2, false⟩, ⟨3, true⟩] : List WsClient), c.writeOk = false →
      c ∉ (broadcastStep [⟨1, true⟩, ⟨2, false⟩, ⟨3, true⟩]).remaining ∧
      c.id ∈ (broadcastStep [⟨1, true⟩, ⟨2, false⟩, ⟨3, true⟩]).closed) ∧
    (∀ c ∈ ([⟨1, true⟩, ⟨2, false⟩, ⟨3, true⟩] : List WsClient), c.writeOk = true →
      c.id ∈ (broadcastStep [⟨1, true⟩, ⟨2, false⟩, ⟨3, true⟩]).delivered) :=
  c4_broadcast_step _

/-- Claim C9 (code bug): a `GET /assets/style.css` is supposed to fall back
to `serveCSS` (template stylesheet, else built-in default CSS), but the
route prefix is stripped before the empty-remainder test, so the `serveCSS`
branch is unreachable for this URL — and unreachable for every URL. With no
`style.css` under the served root the request is answered not-found. -/
theorem c9_style_css_not_served :
    handleAssets ⟨[("/r", true), ("/r/readme.md", false)]⟩ "/r" "/assets/style.css"
        = Response.notFoundResp ∧
    ∀ (fs : Fsys) (root p : String), handleAssets fs root p ≠ Response.cssResponse := by
  constructor
  · rfl
  · intro fs root p h
    simp only [handleAssets] at h
    by_cases h1 : goHasPrefix p "/assets/" = true
    · rw [if_pos h1] at h
      by_cases hrq : goTrimPrefix p "/assets/" = "" ∨ goTrimPrefix p "/assets/" = "/"
      · rw [if_pos hrq] at h
        have hdec := goHasPrefix_decomp p "/assets/" h1
        by_cases hcond : p = "/assets/style.css" ∨ goHasSuffix p "style.css" = true
        · rcases hrq with he | he <;> rw [he] at hdec <;> subst hdec <;>
            rcases hcond with hc | hc <;> exact absurd hc (by decide)
        · rw [if_neg hcond] at h
          exact Response.noConfusion h
      · rw [if_neg hrq] at h
        by_cases hv : (!isValidPath root (joinPath root (goTrimPrefix p "/assets/"))) = true
        · rw [if_pos hv] at h
          exact Response.noConfusion h
        · rw [if_neg hv] at h
          by_cases hst : statNode fs (joinPath root (goTrimPrefix p "/assets/")) = some false
          · rw [if_pos hst] at h
            exact Response.noConfusion h
          · rw [if_neg hst] at h
            exact Response.noConfusion h
    · rw [if_neg h1] at h
      by_cases h2 : p = "/assets"
      · rw [if_pos h2] at h
        rw [if_pos (Or.inl rfl)] at h
        subst h2
        by_cases hcond : ("/assets" : String) = "/assets/style.css" ∨
            goHasSuffix "/assets" "style.css" = true
        · rcases hcond with hc | hc <;> exact absurd hc (by decide)
        · rw [if_neg hcond] at h
          exact Response.noConfusion h
      · rw [if_neg h2] at h
        by_cases hrq : p = "" ∨ p = "/"
        · rw [if_pos hrq] at h
          by_cases hcond : p = "/assets/style.css" ∨ goHasSuffix p "style.css" = true
          · rcases hrq with he | he <;> subst he <;>
              rcases hcond with hc | hc <;> exact absurd hc (by decide)
          · rw [if_neg hcond] at h
            exact Response.noConfusion h
        · rw [if_neg hrq] at h
          by_cases hv : (!isValidPath root (joinPath root p)) = true
          · rw [if_pos hv] at h
            exact Response.noConfusion h
          · rw [if_neg hv] at h
            by_cases hst : statNode fs (joinPath root p) = some false
            · rw [if_pos hst] at h
              exact Response.noConfusion h
            · rw [if_neg hst] at h
              exact Response.noConfusion h

/-- Claim C10: a request `/assets/<rest>` with a real remainder is dispatched
to the asset handler (the `/assets/` pattern wins over the catch-all) and,
for an existing contained regular file, serves that file raw with the
content type derived from its lowercased extension — never as a rendered
Markdown page; `.md` maps to the octet-stream default. -/
theorem c10_assets_md_raw (fs : Fsys) (root rest : String) (en : Bool) (init : LRInit)
    (h1 : rest ≠ "") (h2 : rest ≠ "/")
    (hv : isValidPath root (joinPath root rest) = true)
    (hf : statNode fs (joinPath root rest) = some false) :
    serveHTTP (newServer en init) fs root ("/assets/" ++ rest)
        = Response.staticAsset (joinPath root rest)
            (getContentType (toLowerStr (goExt (joinPath root rest)))) ∧
    (∀ f, serveHTTP (newServer en init) fs root ("/assets/" ++ rest)
        ≠ Response.markdownPage f) ∧
    getContentType (toLowerStr ".md") = "application/octet-stream" := by
  have hmain : serveHTTP (newServer en init) fs root ("/assets/" ++ rest)
      = Response.staticAsset (joinPath root rest)
          (getContentType (toLowerStr (goExt (joinPath root rest)))) := by
    unfold serveHTTP
    rw [if_pos (goHasPrefix_append "/assets/" rest)]
    simp only [handleAssets]
    rw [if_pos (goHasPrefix_append "/assets/" rest), goTrimPrefix_append]
    rw [if_neg (show ¬(rest = "" ∨ rest = "/") by rintro (e | e); exacts [h1 e, h2 e])]
    rw [show (!isValidPath root (joinPath root rest)) = false from by rw [hv]; rfl]
    rw [if_neg (by simp), if_pos hf]
  refine ⟨hmain, ?_, rfl⟩
  intro f h
  rw [hmain] at h
  exact Response.noConfusion h

/-- Witness for `c10_assets_md_raw`: the Markdown file `doc.md` requested
through `/assets/doc.md` is served as a raw asset. -/
theorem c10_assets_md_raw_witness :
    ("doc.md" : String) ≠ "" ∧ ("doc.md" : String) ≠ "/" ∧
    isValidPath "/r" (joinPath "/r" "doc.md") = true ∧
    statNode ⟨[("/r", true), ("/r/doc.md", false)]⟩ (joinPath "/r" "doc.md") = some false ∧
    serveHTTP (newServer true LRInit.ok) ⟨[("/r", true), ("/r/doc.md", false)]⟩ "/r"
        ("/assets/" ++ "doc.md")
      = Response.staticAsset (joinPath "/r" "doc.md")
          (getContentType (toLowerStr (goExt (joinPath "/r" "doc.md")))) :=
  ⟨by decide, by decide, by decide, by decide,
    (c10_assets_md_raw _ _ _ true LRInit.ok (by decide) (by decide) (by decide)
      (by decide)).1⟩

/-! ## Watch-tree lemmas (claim C3) -/

mutual

theorem mem_watchDirT : ∀ (t : FTree) (p q : String),
    q ∈ watchDirT t p ↔ WatchReach t p q
  | .file n, p, q => by
    constructor
    · intro h
      rw [watchDirT] at h
      rcases List.mem_singleton.1 h with rfl
      exact WatchReach.here _ _
    · intro h
      cases h with
      | here => rw [watchDirT]; exact List.mem_singleton.2 rfl
  | .dir n kids, p, q => by
    have hk := mem_watchKidsT kids p q
    constructor
    · intro h
      rw [watchDirT] at h
      rcases List.mem_cons.1 h with h | h
      · exact h ▸ WatchReach.here _ _
      · rcases hk.1 h with ⟨k, hmem, hd, hh, hr⟩
        exact WatchReach.child hmem hd hh hr
    · intro h
      rw [watchDirT]
      cases h with
      | here => exact List.mem_cons_self _ _
      | child hmem hd hh hr =>
        exact List.mem_cons_of_mem _ (hk.2 ⟨_, hmem, hd, hh, hr⟩)

theorem mem_watchKidsT : ∀ (kids : List FTree) (p q : String),
    q ∈ watchKidsT kids p ↔ ∃ k, k ∈ kids ∧ k.isDir = true ∧
      strHead? (goBase (p ++ "/" ++ k.name)) ≠ some '.' ∧
      WatchReach k (p ++ "/" ++ k.name) q
  | [], p, q => by
    rw [watchKidsT]
    simp
  | k :: ks, p, q => by
    have h1 := mem_watchDirT k (p ++ "/" ++ k.name) q
    have h2 := mem_watchKidsT ks p q
    rw [watchKidsT, List.mem_append]
    constructor
    · intro h
      rcases h with h | h
      · by_cases hd : k.isDir = true
        · rw [if_pos hd] at h
          by_cases hh : strHead? (goBase (p ++ "/" ++ k.name)) = some '.'
          · rw [if_pos hh] at h
            simp at h
          · rw [if_neg hh] at h
            exact ⟨k, List.mem_cons_self _ _, hd, hh, h1.1 h⟩
        · rw [if_neg hd] at h
          simp at h
      · rcases h2.1 h with ⟨k', hm, hrest⟩
        exact ⟨k', List.mem_cons_of_mem _ hm, hrest⟩
    · rintro ⟨k', hm, hd, hh, hr⟩
      rcases List.mem_cons.1 hm with he | hm'
      · subst he
        left
        rw [if_pos hd, if_neg hh]
        exact h1.2 hr
      · right
        exact h2.2 ⟨k', hm', hd, hh, hr⟩

end

mutual

theorem watchDirT_not_hidden : ∀ (t : FTree) (p : String),
    strHead? (goBase p) ≠ some '.' →
      ∀ q ∈ watchDirT t p, strHead? (goBase q) ≠ some '.'
  | .file _, p, hp, q, hq => by
    rw [watchDirT] at hq
    rcases List.mem_singleton.1 hq with rfl
    exact hp
  | .dir _ kids, p, hp, q, hq => by
    rw [watchDirT] at hq
    rcases List.mem_cons.1 hq with h | h
    · exact h ▸ hp
    · exact watchKidsT_not_hidden kids p q h

theorem watchKidsT_not_hidden : ∀ (kids : List FTree) (p q : String),
    q ∈ watchKidsT kids p → strHead? (goBase q) ≠ some '.'
  | [], p, q, hq => by
    rw [watchKidsT] at hq
    simp at hq
  | k :: ks, p, q, hq => by
    rw [watchKidsT, List.mem_append] at hq
    rcases hq with h | h
    · by_cases hd : k.isDir = true
      · rw [if_pos hd] at h
        by_cases hh : strHead? (goBase (p ++ "/" ++ k.name)) = some '.'
        · rw [if_pos hh] at h
          simp at h
        · rw [if_neg hh] at h
          exact watchDirT_not_hidden k _ hh q h
      · rw [if_neg hd] at h
        simp at h
    · exact watchKidsT_not_hidden ks p q h

end

theorem watchFilesStep_fst (ev : FsEvent) (statResult : Option FTree) :
    (watchFilesStep ev statResult).1
      = if ev.isWrite && (goExt ev.name == ".md") then ["reload"] else [] := rfl

theorem watchFilesStep_snd_some (ev : FsEvent) (t : FTree) :
    (watchFilesStep ev (some t)).2 =
      if ev.isCreate then
        (if t.isDir then
          (if strHead? (goBase ev.name) = some '.' then [] else watchDirT t ev.name)
         else [])
      else [] := rfl

theorem watchFilesStep_snd_none (ev : FsEvent) :
    (watchFilesStep ev none).2 = [] := by
  show (if ev.isCreate = true then ([] : List String) else []) = []
  exact ite_self _

/-- Claim C3: one iteration of the watch dispatch loop emits exactly one
reload token when the event is a write on a `.md` path (none otherwise);
when the event is a create of an existing non-hidden directory it registers
exactly that directory and, recursively through non-hidden subdirectories,
every directory below it; and no path with a hidden base name is ever
registered. -/
theorem c3_watch_dispatch (ev : FsEvent) (statResult : Option FTree) :
    ((watchFilesStep ev statResult).1.length
        = if ev.isWrite = true ∧ goExt ev.name = ".md" then 1 else 0) ∧
    (∀ q, q ∈ (watchFilesStep ev statResult).2 ↔
      (ev.isCreate = true ∧ ∃ t, statResult = some t ∧ t.isDir = true ∧
        strHead? (goBase ev.name) ≠ some '.' ∧ WatchReach t ev.name q)) ∧
    (∀ q ∈ (watchFilesStep ev statResult).2, strHead? (goBase q) ≠ some '.') := by
  refine ⟨?_, ?_, ?_⟩
  · rw [watchFilesStep_fst]
    by_cases hw : ev.isWrite = true
    · by_cases hm : goExt ev.name = ".md"
      · rw [if_pos (by rw [hw, hm]; rfl), if_pos ⟨hw, hm⟩]
        rfl
      · rw [if_neg (by simp [hw, hm]), if_neg (by simp [hm])]
        rfl
    · have hw' : ev.isWrite = false := Bool.eq_false_iff.mpr hw
      rw [if_neg (by simp [hw']), if_neg (by simp [hw'])]
      rfl
  · intro q
    cases statResult with
    | none =>
      rw [watchFilesStep_snd_none]
      simp
    | some t =>
      rw [watchFilesStep_snd_some]
      by_cases hc : ev.isCreate = true
      · rw [if_pos hc]
        by_cases hd : t.isDir = true
        · rw [if_pos hd]
          by_cases hh : strHead? (goBase ev.name) = some '.'
          · rw [if_pos hh]
            constructor
            · intro hq
              exact absurd hq (List.not_mem_nil q)
            · rintro ⟨_, t', _, _, hh', _⟩
              exact absurd hh hh'
          · rw [if_neg hh, mem_watchDirT]
            constructor
            · intro hr
              exact ⟨hc, t, rfl, hd, hh, hr⟩
            · rintro ⟨_, t', ht', _, _, hr⟩
              obtain rfl := Option.some.inj ht'
              exact hr
        · rw [if_neg hd]
          constructor
          · intro hq
            exact absurd hq (List.not_mem_nil q)
          · rintro ⟨_, t', ht', hd', _, _⟩
            obtain rfl := Option.some.inj ht'
            exact absurd hd' hd
      · rw [if_neg hc]
        constructor
        · intro hq
          exact absurd hq (List.not_mem_nil q)
        · rintro ⟨hc', _⟩
          exact absurd hc' hc
  · intro q hq
    revert hq
    cases statResult with
    | none =>
      rw [watchFilesStep_snd_none]
      intro hq
      exact absurd hq (List.not_mem_nil q)
    | some t =>
      rw [watchFilesStep_snd_some]
      by_cases hc : ev.isCreate = true
      · rw [if_pos hc]
        by_cases hd : t.isDir = true
        · rw [if_pos hd]
          by_cases hh : strHead? (goBase ev.name) = some '.'
          · rw [if_pos hh]
            intro hq
            exact absurd hq (List.not_mem_nil q)
          · rw [if_neg hh]
            exact fun hq => watchDirT_not_hidden t ev.name hh q hq
        · rw [if_neg hd]
          intro hq
          exact absurd hq (List.not_mem_nil q)
      · rw [if_neg hc]
        intro hq
        exact absurd hq (List.not_mem_nil q)

/-- Witness for `c3_watch_dispatch`: a create event for directory `/r/new`
containing the hidden `.git`, a subdirectory `sub` and a file. -/
theorem c3_watch_dispatch_witness :
    ((watchFilesStep ⟨"/r/new", false, true⟩
        (some (FTree.dir "new" [FTree.dir ".git" [], FTree.dir "sub" [FTree.file "a.md"],
          FTree.file "x.md"]))).1.length
      = if (false : Bool) = true ∧ goExt "/r/new" = ".md" then 1 else 0) ∧
    (∀ q, q ∈ (watchFilesStep ⟨"/r/new", false, true⟩
        (some (FTree.dir "new" [FTree.dir ".git" [], FTree.dir "sub" [FTree.file "a.md"],
          FTree.file "x.md"]))).2 ↔
      ((true : Bool) = true ∧ ∃ t, (some (FTree.dir "new" [FTree.dir ".git" [],
          FTree.dir "sub" [FTree.file "a.md"], FTree.file "x.md"])) = some t ∧
        t.isDir = true ∧ strHead? (goBase "/r/new") ≠ some '.' ∧
        WatchReach t "/r/new" q)) ∧
    (∀ q ∈ (watchFilesStep ⟨"/r/new", false, true⟩
        (some (FTree.dir "new" [FTree.dir ".git" [], FTree.dir "sub" [FTree.file "a.md"],
          FTree.file "x.md"]))).2, strHead? (goBase q) ≠ some '.') :=
  c3_watch_dispatch _ _

/-! ## Index-listing lemmas (claim C5) -/

theorem segsOf_snoc (ss : List Seg) (nm : String) (hss : ∀ s ∈ ss, SegWF s)
    (hnm : SegWF nm.data) :
    segsOf (renderRooted ss ++ "/" ++ nm) = ss ++ [nm.data] := by
  cases hs : ss with
  | nil =>
    have hdata : (renderRooted ([] : List Seg) ++ "/" ++ nm).data
        = '/' :: '/' :: nm.data := by
      rw [String.data_append, String.data_append]
      rfl
    show cleanSegsAux [] (splitOnCh '/' (renderRooted ([] : List Seg) ++ "/" ++ nm).data)
        = [nm.data]
    rw [hdata, splitOnCh_cons_sep, splitOnCh_cons_sep,
      splitOnCh_no_sep '/' nm.data hnm.2.1,
      cleanSegsAux_cons_drop _ _ _ (Or.inl rfl), cleanSegsAux_cons_drop _ _ _ (Or.inl rfl)]
    exact cleanSegsAux_of_wf [nm.data] [] (by intro s hsm; rw [List.mem_singleton.1 hsm]; exact hnm)
  | cons s0 rest =>
    rw [← hs]
    have hstr : renderRooted ss ++ "/" ++ nm = renderRooted (ss ++ [nm.data]) := by
      apply String.ext
      rw [String.data_append, String.data_append]
      show ('/' :: joinSegs ss) ++ ['/'] ++ nm.data = '/' :: joinSegs (ss ++ [nm.data])
      rw [joinSegs_concat ss nm.data (by rw [hs]; simp)]
      simp
    rw [hstr]
    apply segsOf_renderRooted
    intro s hsm
    rcases List.mem_append.1 hsm with h | h
    · exact hss s h
    · rw [List.mem_singleton.1 h]
      exact hnm

theorem joinPath_render_snoc (ss : List Seg) (nm : String) (hss : ∀ s ∈ ss, SegWF s)
    (hnm : SegWF nm.data) :
    joinPath (renderRooted ss) nm = renderRooted (ss ++ [nm.data]) := by
  show renderRooted (segsOf (renderRooted ss ++ "/" ++ nm)) = _
  rw [segsOf_snoc ss nm hss hnm]

theorem goRel_unfolded (base targ : String) :
    goRel base targ =
      (if relSegs (segsOf (goAbs base)) (segsOf (goAbs targ)) = [] then "."
       else String.mk
         (joinSegs (relSegs (segsOf (goAbs base)) (segsOf (goAbs targ))))) := rfl

theorem segsOf_goAbs_render (bs : List Seg) (hbs : ∀ s ∈ bs, SegWF s) :
    segsOf (goAbs (renderRooted bs)) = bs := by
  rw [goAbs, goClean_eq_render, segsOf_renderRooted _ (segsOf_wf _),
    segsOf_renderRooted _ hbs]

theorem goRel_render_under (bs ts : List Seg) (hbs : ∀ s ∈ bs, SegWF s)
    (hts : ∀ s ∈ bs ++ ts, SegWF s) (hne : ts ≠ []) :
    goRel (renderRooted bs) (renderRooted (bs ++ ts)) = String.mk (joinSegs ts) := by
  rw [goRel_unfolded, segsOf_goAbs_render bs hbs, segsOf_goAbs_render (bs ++ ts) hts,
    relSegs_append, if_neg hne]

theorem goRel_render_self (bs : List Seg) (hbs : ∀ s ∈ bs, SegWF s) :
    goRel (renderRooted bs) (renderRooted bs) = "." := by
  rw [goRel_unfolded, segsOf_goAbs_render bs hbs, relSegs_self]
  rfl

theorem dropWhile_ne_slash_append (l r : List Char) (h : '/' ∉ l) :
    (l ++ '/' :: r).dropWhile (· ≠ '/') = '/' :: r := by
  induction l with
  | nil => simp [List.dropWhile]
  | cons c cs ih =>
    have hc : c ≠ '/' := fun e => h (e ▸ List.mem_cons_self c cs)
    rw [List.cons_append, List.dropWhile_cons_of_pos (by simpa using hc)]
    exact ih fun m => h (List.mem_cons_of_mem _ m)

theorem goDir_unfolded (p : String) :
    goDir p = (if ((p.data.reverse.dropWhile (· ≠ '/')).reverse) = [] then "."
               else goClean ⟨(p.data.reverse.dropWhile (· ≠ '/')).reverse⟩) := rfl

theorem goDir_renderRooted (ss : List Seg) (hne : ss ≠ []) (hwf : ∀ s ∈ ss, SegWF s) :
    goDir (renderRooted ss) = renderRooted ss.dropLast := by
  rcases List.eq_nil_or_concat ss with h | ⟨init, last, hcat⟩
  · exact absurd h hne
  rw [List.concat_eq_append] at hcat
  subst hcat
  have hlast : SegWF last := hwf last (by simp)
  have hlastrev : '/' ∉ last.reverse := by
    intro m
    exact hlast.2.1 (List.mem_reverse.1 m)
  rw [goDir_unfolded]
  cases hinit : init with
  | nil =>
    subst hinit
    have hdata : (renderRooted ([] ++ [last])).data = '/' :: last := rfl
    rw [hdata, show ('/' :: last).reverse = last.reverse ++ '/' :: [] from by simp,
      dropWhile_ne_slash_append _ _ hlastrev,
      show (('/' :: []) : List Char).reverse = ['/'] from rfl,
      if_neg (by simp)]
    rfl
  | cons i0 irest =>
    rw [← hinit]
    have hinit_ne : init ≠ [] := by rw [hinit]; simp
    have hinitwf : ∀ s ∈ init, SegWF s := fun s hs =>
      hwf s (List.mem_append.2 (Or.inl hs))
    have hdata : (renderRooted (init ++ [last])).data
        = '/' :: (joinSegs init ++ '/' :: last) := by
      show '/' :: joinSegs (init ++ [last]) = _
      rw [joinSegs_concat init last hinit_ne]
    have hrev : ('/' :: (joinSegs init ++ '/' :: last)).reverse
        = last.reverse ++ '/' :: ((joinSegs init).reverse ++ ['/']) := by
      simp
    rw [hdata, hrev, dropWhile_ne_slash_append _ _ hlastrev,
      show ('/' :: ((joinSegs init).reverse ++ ['/'])).reverse
          = ('/' :: joinSegs init) ++ ['/'] from by simp,
      if_neg (by simp)]
    have hprestr : (⟨('/' :: joinSegs init) ++ ['/']⟩ : String)
        = renderRooted init ++ "/" := by
      apply String.ext
      rw [String.data_append]
      rfl
    rw [hprestr, show goClean (renderRooted init ++ "/")
        = renderRooted (segsOf (renderRooted init ++ "/")) from rfl,
      segsOf_append_slash, segsOf_renderRooted _ hinitwf,
      List.dropLast_concat]

theorem index_url_parts (rs ds : List Seg) (nm : String)
    (hrs : ∀ s ∈ rs, SegWF s) (hds : ∀ s ∈ ds, SegWF s) (hnm : SegWF nm.data) :
    ((splitOnCh '/' (goRel (renderRooted rs)
        (joinPath (renderRooted (rs ++ ds)) nm)).data).map String.mk)
      = ds.map String.mk ++ [nm] := by
  have hcomb : ∀ s ∈ rs ++ ds, SegWF s := by
    intro s hs
    rcases List.mem_append.1 hs with h | h
    exacts [hrs s h, hds s h]
  have hall : ∀ s ∈ rs ++ (ds ++ [nm.data]), SegWF s := by
    intro s hs
    rcases List.mem_append.1 hs with h | h
    · exact hrs s h
    · rcases List.mem_append.1 h with h | h
      · exact hds s h
      · rw [List.mem_singleton.1 h]
        exact hnm
  have hsep : ∀ s ∈ ds ++ [nm.data], '/' ∉ s := by
    intro s hs
    rcases List.mem_append.1 hs with h | h
    · exact (hds s h).2.1
    · rw [List.mem_singleton.1 h]
      exact hnm.2.1
  rw [joinPath_render_snoc (rs ++ ds) nm hcomb hnm, List.append_assoc,
    goRel_render_under rs (ds ++ [nm.data]) hrs hall (by simp),
    strData_mk, splitOnCh_joinSegs (ds ++ [nm.data]) (by simp) hsep,
    List.map_append]
  rfl

theorem indexEntryOf_eq (rs ds : List Seg) (nm : String) (isDir : Bool)
    (hrs : ∀ s ∈ rs, SegWF s) (hds : ∀ s ∈ ds, SegWF s) (hnm : SegWF nm.data) :
    indexEntryOf (renderRooted rs) (renderRooted (rs ++ ds)) nm isDir
      = (if !goHasPrefix nm "." && (isDir || goHasSuffix (toLowerStr nm) ".md") then
          some ⟨nm,
            "/" ++ strJoin "/" ((ds.map String.mk ++ [nm]).map pathEscape)
              ++ (if isDir then "/" else ""),
            isDir, !isDir && goHasSuffix (toLowerStr nm) ".md"⟩
         else none) := by
  have hurl := index_url_parts rs ds nm hrs hds hnm
  unfold indexEntryOf
  by_cases hhid : goHasPrefix nm "." = true
  · rw [if_pos hhid, if_neg (by rw [hhid]; simp)]
  · have hhid' : goHasPrefix nm "." = false := Bool.eq_false_iff.mpr hhid
    rw [if_neg hhid]
    cases hdir : isDir with
    | true =>
      rw [if_neg (by simp), if_pos (by simp [hhid'])]
      simp [hurl]
    | false =>
      cases hsfx : goHasSuffix (toLowerStr nm) ".md" with
      | true =>
        rw [if_neg (by simp), if_pos (by simp [hhid'])]
        simp [hurl]
      | false =>
        rw [if_pos (by simp), if_neg (by simp [hhid'])]

theorem parentIndexEntry_path (root dirPath : String) (ps : List String)
    (h : ((splitOnCh '/' (goRel root (goDir dirPath)).data).map String.mk).filter
        (fun part => decide (part ≠ "." ∧ part ≠ "")) = ps) :
    parentIndexEntry root dirPath =
      ⟨"..", if ps.map pathEscape = [] then "/"
             else "/" ++ strJoin "/" (ps.map pathEscape) ++ "/", true, false⟩ := by
  subst h
  rfl

theorem parentIndexEntry_eq (rs ds : List Seg)
    (hrs : ∀ s ∈ rs, SegWF s) (hds : ∀ s ∈ ds, SegWF s) (hne : ds ≠ []) :
    parentIndexEntry (renderRooted rs) (renderRooted (rs ++ ds))
      = ⟨"..",
          (if ds.dropLast = [] then "/"
           else "/" ++ strJoin "/" ((ds.dropLast.map String.mk).map pathEscape) ++ "/"),
          true, false⟩ := by
  have hcomb : ∀ s ∈ rs ++ ds, SegWF s := by
    intro s hs
    rcases List.mem_append.1 hs with h | h
    exacts [hrs s h, hds s h]
  have hdlwf : ∀ s ∈ ds.dropLast, SegWF s := fun s hs =>
    hds s (List.dropLast_sublist ds |>.mem hs)
  have hgd0 : goDir (renderRooted (rs ++ ds)) = renderRooted (rs ++ ds.dropLast) := by
    rw [goDir_renderRooted (rs ++ ds) (by simp [hne]) hcomb,
      List.dropLast_append_of_ne_nil rs hne]
  cases hdl : ds.dropLast with
  | nil =>
    have hps : ((splitOnCh '/' (goRel (renderRooted rs)
        (goDir (renderRooted (rs ++ ds)))).data).map String.mk).filter
        (fun part => decide (part ≠ "." ∧ part ≠ "")) = [] := by
      rw [hgd0, hdl, List.append_nil, goRel_render_self rs hrs]
      rfl
    rw [parentIndexEntry_path _ _ _ hps]
    rfl
  | cons d dl =>
    have hdwf : ∀ s ∈ rs ++ d :: dl, SegWF s := by
      intro s hs
      rcases List.mem_append.1 hs with h | h
      · exact hrs s h
      · exact hdlwf s (hdl ▸ h)
    have hkeep : ((d :: dl).map String.mk).filter
        (fun part => decide (part ≠ "." ∧ part ≠ "")) = (d :: dl).map String.mk := by
      apply List.filter_eq_self.2
      intro a ha
      rcases List.mem_map.1 ha with ⟨s, hsm, rfl⟩
      have hswf : SegWF s := hdlwf s (hdl ▸ hsm)
      apply decide_eq_true
      constructor
      · intro e
        exact hswf.2.2.1 (congrArg String.data e)
      · intro e
        exact hswf.1 (congrArg String.data e)
    have hps : ((splitOnCh '/' (goRel (renderRooted rs)
        (goDir (renderRooted (rs ++ ds)))).data).map String.mk).filter
        (fun part => decide (part ≠ "." ∧ part ≠ "")) = (d :: dl).map String.mk := by
      rw [hgd0, hdl, goRel_render_under rs (d :: dl) hrs hdwf (by simp), strData_mk,
        splitOnCh_joinSegs (d :: dl) (by simp)
          (fun s hs => (hdlwf s (hdl ▸ hs)).2.1)]
      exact hkeep
    rw [parentIndexEntry_path _ _ _ hps, if_neg (by simp), if_neg (by simp)]

theorem indexEntriesCore_eq (rs ds : List Seg) (entries : List (String × Bool))
    (hrs : ∀ s ∈ rs, SegWF s) (hds : ∀ s ∈ ds, SegWF s)
    (hnm : ∀ e ∈ entries, SegWF e.1.data) :
    indexEntriesCore (renderRooted rs) (renderRooted (rs ++ ds)) entries
      = (entries.filter fun e =>
            !goHasPrefix e.1 "." && (e.2 || goHasSuffix (toLowerStr e.1) ".md")).map
          (fun e => (⟨e.1,
            "/" ++ strJoin "/" ((ds.map String.mk ++ [e.1]).map pathEscape)
              ++ (if e.2 then "/" else ""), e.2,
            !e.2 && goHasSuffix (toLowerStr e.1) ".md"⟩ : DirectoryEntry)) := by
  induction entries with
  | nil => rfl
  | cons e es ih =>
    have hme : SegWF e.1.data := hnm e (List.mem_cons_self _ _)
    have ihe := ih fun x hx => hnm x (List.mem_cons_of_mem _ hx)
    simp only [indexEntriesCore] at ihe ⊢
    by_cases hcond :
        (!goHasPrefix e.1 "." && (e.2 || goHasSuffix (toLowerStr e.1) ".md")) = true
    · rw [List.filterMap_cons_some
        (by rw [indexEntryOf_eq rs ds e.1 e.2 hrs hds hme, if_pos hcond]),
        @List.filter_cons_of_pos _
          (fun e => !goHasPrefix e.1 "." && (e.2 || goHasSuffix (toLowerStr e.1) ".md"))
          e es hcond,
        List.map_cons, ihe]
    · rw [List.filterMap_cons_none
        (by rw [indexEntryOf_eq rs ds e.1 e.2 hrs hds hme, if_neg hcond]),
        @List.filter_cons_of_neg _
          (fun e => !goHasPrefix e.1 "." && (e.2 || goHasSuffix (toLowerStr e.1) ".md"))
          e es hcond,
        ihe]

/-- Claim C5: for a directory at segments `rs ++ ds` under the served root
at `rs`, the generated index listing is exactly the non-hidden
subdirectories and non-hidden (case-insensitively) `.md` files, in
directory order, each linked by the root-relative path whose segments are
percent-encoded independently (directories with a trailing slash); one
synthetic `..` entry is prepended exactly when the listed directory is not
the served root itself. -/
theorem c5_index_listing (rs ds : List Seg) (entries : List (String × Bool))
    (hrs : ∀ s ∈ rs, SegWF s) (hds : ∀ s ∈ ds, SegWF s)
    (hnm : ∀ e ∈ entries, SegWF e.1.data) :
    indexDirEntries (renderRooted rs) (renderRooted (rs ++ ds)) entries
      = (if ds = [] then [] else
          [⟨"..",
            (if ds.dropLast = [] then "/"
             else "/" ++ strJoin "/" ((ds.dropLast.map String.mk).map pathEscape) ++ "/"),
            true, false⟩])
        ++ (entries.filter fun e =>
              !goHasPrefix e.1 "." && (e.2 || goHasSuffix (toLowerStr e.1) ".md")).map
            (fun e => (⟨e.1,
              "/" ++ strJoin "/" ((ds.map String.mk ++ [e.1]).map pathEscape)
                ++ (if e.2 then "/" else ""), e.2,
              !e.2 && goHasSuffix (toLowerStr e.1) ".md"⟩ : DirectoryEntry)) ∧
    ((indexDirEntries (renderRooted rs) (renderRooted (rs ++ ds)) entries).filter
        (fun d => d.name == "..")).length = (if ds = [] then 0 else 1) := by
  have hcomb : ∀ s ∈ rs ++ ds, SegWF s := by
    intro s hs
    rcases List.mem_append.1 hs with h | h
    exacts [hrs s h, hds s h]
  have hAbs1 : goAbs (renderRooted (rs ++ ds)) = renderRooted (rs ++ ds) := by
    rw [goAbs, goClean_eq_render, segsOf_renderRooted _ hcomb]
  have hAbs2 : goAbs (renderRooted rs) = renderRooted rs := by
    rw [goAbs, goClean_eq_render, segsOf_renderRooted _ hrs]
  have hmain : indexDirEntries (renderRooted rs) (renderRooted (rs ++ ds)) entries
      = (if ds = [] then [] else
          [⟨"..",
            (if ds.dropLast = [] then "/"
             else "/" ++ strJoin "/" ((ds.dropLast.map String.mk).map pathEscape) ++ "/"),
            true, false⟩])
        ++ (entries.filter fun e =>
              !goHasPrefix e.1 "." && (e.2 || goHasSuffix (toLowerStr e.1) ".md")).map
            (fun e => (⟨e.1,
              "/" ++ strJoin "/" ((ds.map String.mk ++ [e.1]).map pathEscape)
                ++ (if e.2 then "/" else ""), e.2,
              !e.2 && goHasSuffix (toLowerStr e.1) ".md"⟩ : DirectoryEntry)) := by
    unfold indexDirEntries
    rw [hAbs1, hAbs2, indexEntriesCore_eq rs ds entries hrs hds hnm]
    by_cases hD : ds = []
    · subst hD
      rw [show (renderRooted (rs ++ []) == renderRooted rs) = true from by
          rw [List.append_nil]; simp]
      rw [if_pos rfl, List.nil_append]
      rfl
    · have hBeq : (renderRooted (rs ++ ds) == renderRooted rs) = false := by
        apply beq_eq_false_iff_ne.mpr
        intro e
        have h1 : rs ++ ds = rs := by
          have := congrArg segsOf e
          rwa [segsOf_renderRooted _ hcomb, segsOf_renderRooted _ hrs] at this
        exact hD (List.append_right_eq_self.1 h1)
      rw [hBeq, parentIndexEntry_eq rs ds hrs hds hD, if_neg hD]
      rfl
  refine ⟨hmain, ?_⟩
  rw [hmain, List.filter_append]
  have hmapped : (((entries.filter fun e =>
        !goHasPrefix e.1 "." && (e.2 || goHasSuffix (toLowerStr e.1) ".md")).map
          (fun e => (⟨e.1,
            "/" ++ strJoin "/" ((ds.map String.mk ++ [e.1]).map pathEscape)
              ++ (if e.2 then "/" else ""), e.2,
            !e.2 && goHasSuffix (toLowerStr e.1) ".md"⟩ : DirectoryEntry))).filter
        (fun d => d.name == "..")) = [] := by
    apply List.filter_eq_nil_iff.2
    intro d hd
    rcases List.mem_map.1 hd with ⟨e, he, rfl⟩
    have hwf : SegWF e.1.data := hnm e (List.mem_filter.1 he).1
    simp only [beq_iff_eq]
    intro hename
    apply hwf.2.2.2
    exact congrArg String.data hename
  rw [hmapped, List.append_nil]
  by_cases hD : ds = []
  · subst hD
    rw [if_pos rfl, if_pos rfl]
    rfl
  · rw [if_neg hD, if_neg hD]
    simp [List.filter]

/-- Witness for `c5_index_listing`: root `/r`, directory `/r/d`, entries
`a.md`, `notes/`, `.hidden/`, `pic.png`: the listing is `..`, `a.md`,
`notes/`, excluding the hidden directory and the non-Markdown file. -/
theorem c5_index_listing_witness :
    (∀ s ∈ [['r']], SegWF s) ∧ (∀ s ∈ [['d']], SegWF s) ∧
    (∀ e ∈ ([("a.md", false), ("notes", true), (".hidden", true), ("pic.png", false)] :
        List (String × Bool)), SegWF e.1.data) ∧
    (indexDirEntries (renderRooted [['r']]) (renderRooted ([['r']] ++ [['d']]))
        [("a.md", false), ("notes", true), (".hidden", true), ("pic.png", false)]
      = (if ([['d']] : List Seg) = [] then [] else
          [⟨"..",
            (if ([['d']] : List Seg).dropLast = [] then "/"
             else "/" ++ strJoin "/"
               ((([['d']] : List Seg).dropLast.map String.mk).map pathEscape) ++ "/"),
            true, false⟩])
        ++ (([("a.md", false), ("notes", true), (".hidden", true), ("pic.png", false)] :
              List (String × Bool)).filter fun e =>
              !goHasPrefix e.1 "." && (e.2 || goHasSuffix (toLowerStr e.1) ".md")).map
            (fun e => (⟨e.1,
              "/" ++ strJoin "/" ((([['d']] : List Seg).map String.mk ++ [e.1]).map pathEscape)
                ++ (if e.2 then "/" else ""), e.2,
              !e.2 && goHasSuffix (toLowerStr e.1) ".md"⟩ : DirectoryEntry))) :=
  ⟨by decide, by decide, by decide,
    (c5_index_listing [['r']] [['d']] _ (by decide) (by decide) (by decide)).1⟩

end MdServer
